import Mathlib

/-!
Verification of the MF-PipoNodes ComfyUI plugin package.

Python strings are modelled as lists of characters (`Str`), Python ints as
`Int`, Python dicts as association lists.  Each node's compute function from
the repository is translated into an executable Lean definition, and the
claims about the package are proved as theorems about those definitions.
-/

/-- Python strings, modelled as lists of characters. -/
abbrev Str := List Char

/-- Characters stripped by Python `str.strip()` (ASCII whitespace set). -/
def pyIsSpace (c : Char) : Bool :=
  c = ' ' || c = '\t' || c = '\n' || c = '\r' || c = '\x0b' || c = '\x0c'

/-- Python `str.strip()`: drop whitespace from both ends. -/
def pyStrip (s : Str) : Str :=
  ((s.dropWhile pyIsSpace).reverse.dropWhile pyIsSpace).reverse

/-- Python `str.split(sep)` for a one-character separator: `"".split(",") = [""]`. -/
def splitOnChar (sep : Char) : Str → List Str
  | [] => [[]]
  | c :: rest =>
    match splitOnChar sep rest with
    | [] => if c = sep then [[], []] else [[c]]
    | h :: t => if c = sep then [] :: h :: t else (c :: h) :: t

/-- The digit character for `d < 10`, code point `48 + d`. -/
def digitChar (d : Nat) : Char := Char.ofNat (48 + d)

/-- Numeric value of a digit character. -/
def digitVal (c : Char) : Nat := c.toNat - 48

/-- Whether `c` is an ASCII decimal digit. -/
def isDigitChar (c : Char) : Bool := 48 ≤ c.toNat && c.toNat ≤ 57

/-- Decimal rendering of a natural number, as Python `str` produces it. -/
def natToStr (n : Nat) : Str :=
  if _h : n < 10 then [digitChar n]
  else natToStr (n / 10) ++ [digitChar (n % 10)]
termination_by n
decreasing_by exact Nat.div_lt_self (by omega) (by omega)

/-- Decimal rendering of an integer, as Python `str` produces it. -/
def intToStr (i : Int) : Str :=
  if i < 0 then '-' :: natToStr (-i).toNat else natToStr i.toNat

/-- Value of a digit string, folding left as positional decimal. -/
def digitsVal (s : Str) : Nat := s.foldl (fun a c => a * 10 + digitVal c) 0

/-- Parse a nonempty all-digit string; `none` models Python `ValueError`. -/
def parseDigits (s : Str) : Option Nat :=
  if s ≠ [] ∧ s.all isDigitChar then some (digitsVal s) else none

/-- Python `int(s)` on an already-stripped string: optional sign then digits. -/
def pyParseInt (s : Str) : Option Int :=
  match s with
  | [] => none
  | c :: rest =>
    if c = '-' then (parseDigits rest).map (fun n => -(n : Int))
    else if c = '+' then (parseDigits rest).map (fun n => (n : Int))
    else (parseDigits s).map (fun n => (n : Int))

/-- A character appearing in an integer rendering: a digit or the minus sign. -/
def isNumChar (c : Char) : Bool := isDigitChar c || c = '-'

-- Basic facts about digit characters.

theorem digitChar_toNat {d : Nat} (h : d < 10) : (digitChar d).toNat = 48 + d := by
  interval_cases d <;> rfl

theorem digitVal_digitChar {d : Nat} (h : d < 10) : digitVal (digitChar d) = d := by
  simp [digitVal, digitChar_toNat h]

theorem isDigitChar_digitChar {d : Nat} (h : d < 10) : isDigitChar (digitChar d) = true := by
  simp [isDigitChar, digitChar_toNat h]; omega

theorem digitChar_ne_neg {d : Nat} (h : d < 10) : digitChar d ≠ '-' := by
  intro hc
  have : (digitChar d).toNat = 45 := by rw [hc]; rfl
  rw [digitChar_toNat h] at this; omega

theorem digitChar_ne_plus {d : Nat} (h : d < 10) : digitChar d ≠ '+' := by
  intro hc
  have : (digitChar d).toNat = 43 := by rw [hc]; rfl
  rw [digitChar_toNat h] at this; omega

theorem isDigitChar_not_space {c : Char} (h : isDigitChar c = true) : pyIsSpace c = false := by
  cases hc : pyIsSpace c
  · rfl
  · exfalso
    simp [pyIsSpace] at hc
    simp [isDigitChar] at h
    rcases hc with ((((hc | hc) | hc) | hc) | hc) | hc <;> (subst hc; revert h; decide)

theorem isNumChar_not_space {c : Char} (h : isNumChar c = true) : pyIsSpace c = false := by
  simp [isNumChar] at h
  rcases h with h | h
  · exact isDigitChar_not_space h
  · subst h; rfl

-- natToStr: every character is a digit, the string is nonempty, and folding
-- the digits back recovers the number.

theorem natToStr_ne_nil (n : Nat) : natToStr n ≠ [] := by
  rw [natToStr]
  split
  · simp
  · simp

theorem natToStr_all_digits (n : Nat) : (natToStr n).all isDigitChar = true := by
  induction n using Nat.strong_induction_on with
  | _ n ih =>
    rw [natToStr]
    split
    · next h => simp [isDigitChar_digitChar h]
    · next h =>
      have hd : n / 10 < n := Nat.div_lt_self (by omega) (by omega)
      simp [List.all_append, ih _ hd, isDigitChar_digitChar (Nat.mod_lt n (by omega))]

theorem digitsVal_append_digit (s : Str) (c : Char) :
    digitsVal (s ++ [c]) = digitsVal s * 10 + digitVal c := by
  simp [digitsVal, List.foldl_append]

theorem digitsVal_natToStr (n : Nat) : digitsVal (natToStr n) = n := by
  induction n using Nat.strong_induction_on with
  | _ n ih =>
    rw [natToStr]
    split
    · next h => simp [digitsVal, digitVal_digitChar h]
    · next h =>
      have hd : n / 10 < n := Nat.div_lt_self (by omega) (by omega)
      rw [digitsVal_append_digit, ih _ hd, digitVal_digitChar (Nat.mod_lt n (by omega))]
      omega

theorem parseDigits_natToStr (n : Nat) : parseDigits (natToStr n) = some n := by
  simp [parseDigits, natToStr_ne_nil n, natToStr_all_digits n, digitsVal_natToStr n]

theorem natToStr_head_digit (n : Nat) :
    ∃ c rest, natToStr n = c :: rest ∧ isDigitChar c = true := by
  have hall := natToStr_all_digits n
  have hne := natToStr_ne_nil n
  cases hs : natToStr n with
  | nil => exact absurd hs hne
  | cons c rest =>
    refine ⟨c, rest, rfl, ?_⟩
    rw [hs] at hall
    simp [List.all_cons] at hall
    exact hall.1

/-- A digit character is not the minus sign. -/
theorem digitChar_is_not_minus {c : Char} (h : isDigitChar c = true) : ¬(c = '-') := by
  intro hc; subst hc; simp [isDigitChar] at h

/-- A digit character is not the plus sign. -/
theorem digitChar_is_not_plus {c : Char} (h : isDigitChar c = true) : ¬(c = '+') := by
  intro hc; subst hc; simp [isDigitChar] at h

/-- Round trip: Python `int(str(i)) = i`. -/
theorem pyParseInt_intToStr (i : Int) : pyParseInt (intToStr i) = some i := by
  unfold intToStr
  split
  · next hneg =>
    simp only [pyParseInt, if_pos rfl]
    rw [parseDigits_natToStr]
    simp
    omega
  · next hpos =>
    obtain ⟨c, rest, hs, hd⟩ := natToStr_head_digit i.toNat
    rw [hs]
    simp only [pyParseInt]
    rw [if_neg (digitChar_is_not_minus hd), if_neg (digitChar_is_not_plus hd)]
    rw [← hs, parseDigits_natToStr]
    simp
    omega

/-! ## MF_ShotHelper (src/nodes/sequencing.py) -/

/-- Python `f"{i:02d}"`: pad the decimal rendering with zeros to width 2,
the sign (if any) counting toward the width. -/
def pad02 (i : Int) : Str :=
  if i < 0 then '-' :: natToStr (-i).toNat
  else if (natToStr i.toNat).length < 2 then '0' :: natToStr i.toNat else natToStr i.toNat

/-- `beats_clean[1:-1]` when the stripped string starts with `[` and ends with `]`. -/
def stripBrackets (s : Str) : Str :=
  if s.head? = some '[' ∧ s.getLast? = some ']' then (s.drop 1).dropLast else s

/-- Python `str.replace("\n", ",")`. -/
def replaceNlComma (s : Str) : Str := s.map (fun c => if c = '\n' then ',' else c)

/-- The comprehension `[int(b.strip()) for b in chunks if b.strip()]`;
`none` models the `ValueError` raised by `int` on a malformed chunk. -/
def parseChunks : List Str → Option (List Int)
  | [] => some []
  | chunk :: rest =>
    if pyStrip chunk = [] then parseChunks rest
    else
      match pyParseInt (pyStrip chunk) with
      | none => none
      | some i => (parseChunks rest).map (fun l => i :: l)

/-- The beat-string parser of `calculate_sequence_shot` before sorting:
strip, remove array brackets, unify newlines to commas, split, parse. -/
def parseBeatsOpt (beats : Str) : Option (List Int) :=
  if pyStrip beats = [] then some []
  else parseChunks (splitOnChar ',' (replaceNlComma (stripBrackets (pyStrip beats))))

/-- `beat_list` as the node computes it: parsed beats, sorted; `[]` on `ValueError`. -/
def beatListOf (beats : Str) : List Int :=
  match parseBeatsOpt beats with
  | some l => l.mergeSort
  | none => []

/-- The `for beat in beat_list` loop: bump the sequence and remember the beat
while `step >= beat`, stop at the first larger beat. -/
def seqShotLoop (step : Int) : List Int → Int → Int → Int × Int
  | [], seq, ss => (seq, ss)
  | b :: rest, seq, ss => if step ≥ b then seqShotLoop step rest (seq + 1) b else (seq, ss)

/-- Return record of `MF_ShotHelper.calculate_sequence_shot`. -/
structure ShotHelperOutput where
  sequence_int : Int
  sequence_str : Str
  shot_int : Int
  shot_str : Str
  shot_name : Str
deriving DecidableEq

/-- `MF_ShotHelper.calculate_sequence_shot`. -/
def calculate_sequence_shot (step : Int) (beats : Str) : ShotHelperOutput :=
  let beat_list := beatListOf beats
  let r := seqShotLoop step beat_list 1 0
  let shot_num := step - r.2 + 1
  { sequence_int := r.1
    sequence_str := intToStr r.1
    shot_int := shot_num
    shot_str := intToStr shot_num
    shot_name := "seq".data ++ pad02 r.1 ++ "_shot".data ++ pad02 shot_num }

/-- Number of parsed beats `<= step`, duplicates counted. -/
def countLeBeats (bs : List Int) (step : Int) : Nat :=
  (bs.filter (fun b => decide (b ≤ step))).length

/-- Largest element of a list, `0` for the empty list. -/
def listMaxD : List Int → Int
  | [] => 0
  | h :: t => t.foldl max h

/-- Largest parsed beat `<= step`, `0` when there is none. -/
def maxBeatLe (bs : List Int) (step : Int) : Int :=
  listMaxD (bs.filter (fun b => decide (b ≤ step)))

/-- Last element of a list, with a default for the empty list. -/
def lastD : List Int → Int → Int
  | [], d => d
  | h :: t, _ => lastD t h

-- The loop consumes exactly the prefix of beats `<= step` (`takeWhile`).

theorem seqShotLoop_eq (step : Int) (l : List Int) (seq ss : Int) :
    seqShotLoop step l seq ss =
      (seq + (((l.takeWhile fun b => decide (b ≤ step)).length : Nat) : Int),
       lastD (l.takeWhile fun b => decide (b ≤ step)) ss) := by
  induction l generalizing seq ss with
  | nil => simp [seqShotLoop, lastD]
  | cons b rest ih =>
    by_cases h : b ≤ step
    · have hge : step ≥ b := h
      rw [seqShotLoop, if_pos hge, ih, List.takeWhile_cons_of_pos (by simpa using h)]
      simp [lastD]
      omega
    · have hge : ¬(step ≥ b) := h
      rw [seqShotLoop, if_neg hge, List.takeWhile_cons_of_neg (by simpa using h)]
      simp [lastD]

-- On a sorted list the `<= step` prefix is all the `<= step` elements.

theorem takeWhile_le_eq_filter (step : Int) :
    ∀ {l : List Int}, l.Sorted (· ≤ ·) →
      (l.takeWhile fun b => decide (b ≤ step)) = l.filter fun b => decide (b ≤ step) := by
  intro l hs
  induction l with
  | nil => rfl
  | cons a t ih =>
    have hrel := List.sorted_cons.mp hs
    by_cases h : a ≤ step
    · rw [List.takeWhile_cons_of_pos (by simpa using h), List.filter_cons_of_pos (by simpa using h),
        ih hrel.2]
    · rw [List.takeWhile_cons_of_neg (by simpa using h)]
      symm
      rw [List.filter_eq_nil_iff]
      intro b hb
      simp only [decide_eq_true_eq]
      rcases List.mem_cons.mp hb with hb | hb
      · subst hb; exact h
      · intro hbs; exact h (le_trans (hrel.1 b hb) hbs)

-- Fold-max facts: membership, upper bound, invariance under permutation.

theorem le_foldl_max : ∀ (t : List Int) (h x : Int), x ∈ h :: t → x ≤ t.foldl max h := by
  intro t
  induction t with
  | nil => intro h x hx; simp at hx; simp [hx]
  | cons b u ih =>
    intro h x hx
    rcases List.mem_cons.mp hx with hx | hx
    · subst hx
      calc x ≤ max x b := le_max_left x b
        _ ≤ u.foldl max (max x b) := ih (max x b) (max x b) (List.mem_cons_self _ _)
    · rcases List.mem_cons.mp hx with hx | hx
      · subst hx
        calc x ≤ max h x := le_max_right h x
          _ ≤ u.foldl max (max h x) := ih (max h x) (max h x) (List.mem_cons_self _ _)
      · exact ih (max h b) x (List.mem_cons_of_mem _ hx)

theorem foldl_max_mem : ∀ (t : List Int) (h : Int), t.foldl max h ∈ h :: t := by
  intro t
  induction t with
  | nil => intro h; simp
  | cons b u ih =>
    intro h
    show u.foldl max (max h b) ∈ h :: b :: u
    rcases max_choice h b with hm | hm <;> rw [hm]
    · rcases List.mem_cons.mp (ih h) with h1 | h1 <;> simp [h1]
    · rcases List.mem_cons.mp (ih b) with h1 | h1 <;> simp [h1]

theorem le_listMaxD (l : List Int) (x : Int) (hx : x ∈ l) : x ≤ listMaxD l := by
  cases l with
  | nil => simp at hx
  | cons h t => exact le_foldl_max t h x hx

theorem listMaxD_mem (l : List Int) (hne : l ≠ []) : listMaxD l ∈ l := by
  cases l with
  | nil => exact absurd rfl hne
  | cons h t => exact foldl_max_mem t h

theorem listMaxD_perm {l1 l2 : List Int} (h : l1.Perm l2) : listMaxD l1 = listMaxD l2 := by
  cases h1 : l1 with
  | nil =>
    subst h1
    have : l2 = [] := h.symm.eq_nil
    rw [this]
  | cons a t =>
    have hne1 : l1 ≠ [] := by rw [h1]; simp
    have hne2 : l2 ≠ [] := by
      intro h2
      rw [h2] at h
      exact hne1 h.eq_nil
    rw [← h1]
    apply le_antisymm
    · exact le_listMaxD l2 _ (h.mem_iff.mp (listMaxD_mem l1 hne1))
    · exact le_listMaxD l1 _ (h.mem_iff.mpr (listMaxD_mem l2 hne2))

-- The last element of a sorted nonempty list is its maximum.

theorem lastD_sorted : ∀ (t : List Int) (h : Int), (h :: t).Sorted (· ≤ ·) →
    ∀ d, lastD (h :: t) d = t.foldl max h := by
  intro t
  induction t with
  | nil => intro h _ d; simp [lastD]
  | cons b u ih =>
    intro h hs d
    have hrel := List.sorted_cons.mp hs
    have hhb : h ≤ b := hrel.1 b (List.mem_cons_self _ _)
    have : lastD (h :: b :: u) d = lastD (b :: u) h := by simp [lastD]
    rw [this, ih b hrel.2 h]
    have : max h b = b := max_eq_right hhb
    rw [List.foldl_cons, this]

theorem lastD_eq_listMaxD {l : List Int} (hs : l.Sorted (· ≤ ·)) (d : Int) (hne : l ≠ []) :
    lastD l d = listMaxD l := by
  cases l with
  | nil => exact absurd rfl hne
  | cons h t => rw [lastD_sorted t h hs d]; rfl

/-- Example beats string used by concrete witnesses. -/
def beatsExample : Str := "3,8,15".data

/-- C1: on any beats string that parses, the node returns
1 + the number of beats `<= step` as the sequence, `step` minus the largest
beat `<= step` (0 when none) plus 1 as the shot, their decimal renderings,
and the zero-padded `seqSS_shotNN` name. -/
theorem shotHelper_formula (step : Int) (bs : List Int) (beats : Str)
    (h : parseBeatsOpt beats = some bs) :
    calculate_sequence_shot step beats =
      { sequence_int := 1 + (countLeBeats bs step : Int)
        sequence_str := intToStr (1 + (countLeBeats bs step : Int))
        shot_int := step - maxBeatLe bs step + 1
        shot_str := intToStr (step - maxBeatLe bs step + 1)
        shot_name := "seq".data ++ pad02 (1 + (countLeBeats bs step : Int)) ++ "_shot".data
          ++ pad02 (step - maxBeatLe bs step + 1) } := by
  have hbl : beatListOf beats = bs.mergeSort := by rw [beatListOf, h]
  have hsorted : (bs.mergeSort).Sorted (· ≤ ·) := List.sorted_mergeSort' bs
  have hperm : (bs.mergeSort).Perm bs := List.mergeSort_perm bs _
  have hfperm : ((bs.mergeSort).filter fun b => decide (b ≤ step)).Perm
      (bs.filter fun b => decide (b ≤ step)) := hperm.filter _
  have hlen : ((bs.mergeSort).filter fun b => decide (b ≤ step)).length = countLeBeats bs step :=
    hfperm.length_eq
  have hloop := seqShotLoop_eq step (bs.mergeSort) 1 0
  rw [takeWhile_le_eq_filter step hsorted] at hloop
  have hmax : lastD ((bs.mergeSort).filter fun b => decide (b ≤ step)) 0 = maxBeatLe bs step := by
    by_cases hfe : ((bs.mergeSort).filter fun b => decide (b ≤ step)) = []
    · have hfe2 : (bs.filter fun b => decide (b ≤ step)) = [] := by
        have hp := hfperm
        rw [hfe] at hp
        exact (hp.symm).eq_nil
      rw [hfe, maxBeatLe, hfe2]
      rfl
    · rw [lastD_eq_listMaxD (List.Pairwise.filter _ hsorted) 0 hfe, maxBeatLe]
      exact listMaxD_perm hfperm
  simp only [calculate_sequence_shot, hbl, hloop, hlen, hmax]
theorem shotHelper_formula_witness :
    calculate_sequence_shot 5 beatsExample =
      { sequence_int := 1 + (countLeBeats [3, 8, 15] 5 : Int)
        sequence_str := intToStr (1 + (countLeBeats [3, 8, 15] 5 : Int))
        shot_int := 5 - maxBeatLe [3, 8, 15] 5 + 1
        shot_str := intToStr (5 - maxBeatLe [3, 8, 15] 5 + 1)
        shot_name := "seq".data ++ pad02 (1 + (countLeBeats [3, 8, 15] 5 : Int)) ++ "_shot".data
          ++ pad02 (5 - maxBeatLe [3, 8, 15] 5 + 1) } :=
  shotHelper_formula 5 [3, 8, 15] beatsExample (by decide)

/-! ## C2: the three beat notations -/

/-- Join string parts with a single separator character. -/
def joinSep (sep : Char) : List Str → Str
  | [] => []
  | [p] => p
  | p :: q :: ps => p ++ sep :: joinSep sep (q :: ps)

/-- Comma-separated rendering of a beat list, e.g. `3,8,15`. -/
def renderComma (bs : List Int) : Str := joinSep ',' (bs.map intToStr)

/-- One-per-line rendering of a beat list, e.g. `3\n8\n15`. -/
def renderLines (bs : List Int) : Str := joinSep '\n' (bs.map intToStr)

/-- Array rendering of a beat list, e.g. `[3,8,15]`. -/
def renderArray (bs : List Int) : Str := '[' :: (renderComma bs ++ [']'])

theorem dropWhile_eq_self_of_head {p : Char → Bool} :
    ∀ {s : Str}, (∀ c, s.head? = some c → p c = false) → s.dropWhile p = s := by
  intro s h
  cases s with
  | nil => rfl
  | cons c rest =>
    have := h c rfl
    simp [List.dropWhile_cons, this]

theorem pyStrip_eq_self {s : Str} (h1 : ∀ c, s.head? = some c → pyIsSpace c = false)
    (h2 : ∀ c, s.getLast? = some c → pyIsSpace c = false) : pyStrip s = s := by
  unfold pyStrip
  rw [dropWhile_eq_self_of_head h1]
  rw [dropWhile_eq_self_of_head (by
    intro c hc
    apply h2
    rwa [List.head?_reverse] at hc)]
  exact List.reverse_reverse s

theorem pyStrip_eq_self_of_all {s : Str} (h : ∀ c ∈ s, pyIsSpace c = false) : pyStrip s = s := by
  apply pyStrip_eq_self
  · intro c hc; exact h c (List.mem_of_mem_head? hc)
  · intro c hc; exact h c (List.mem_of_mem_getLast? hc)

theorem intToStr_all_num (i : Int) : ∀ c ∈ intToStr i, isNumChar c = true := by
  intro c hc
  unfold intToStr at hc
  have hdig : ∀ n c, c ∈ natToStr n → isNumChar c = true := by
    intro n c hc
    have hall := natToStr_all_digits n
    rw [List.all_eq_true] at hall
    simp [isNumChar, hall c hc]
  split at hc
  · rcases List.mem_cons.mp hc with h1 | h1
    · subst h1; rfl
    · exact hdig _ c h1
  · exact hdig _ c hc

theorem joinSep_cons_cons (sep : Char) (c : Char) (p : Str) (ps : List Str) :
    joinSep sep ((c :: p) :: ps) = c :: joinSep sep (p :: ps) := by
  cases ps with
  | nil => rfl
  | cons q qs => simp [joinSep]

theorem splitOnChar_joinSep (sep : Char) :
    ∀ (ps : List Str), (∀ q ∈ ps, sep ∉ q) →
      ∀ (p : Str), sep ∉ p → splitOnChar sep (joinSep sep (p :: ps)) = p :: ps := by
  intro ps
  induction ps with
  | nil =>
    intro _ p hp
    induction p with
    | nil => rfl
    | cons c p' ihp =>
      have hc : ¬(c = sep) := by intro h; exact hp (h ▸ List.mem_cons_self c p')
      have ihp' := ihp (fun h => hp (List.mem_cons_of_mem c h))
      rw [joinSep_cons_cons, splitOnChar, ihp']
      simp [hc]
  | cons q qs ihps =>
    intro hq p hp
    induction p with
    | nil =>
      have : joinSep sep ([] :: q :: qs) = sep :: joinSep sep (q :: qs) := rfl
      rw [this, splitOnChar]
      have hrec := ihps (fun r hr => hq r (List.mem_cons_of_mem q hr)) q
        (hq q (List.mem_cons_self q qs))
      rw [hrec]
      simp
    | cons c p' ihp =>
      have hc : ¬(c = sep) := by intro h; exact hp (h ▸ List.mem_cons_self c p')
      have ihp' := ihp (fun h => hp (List.mem_cons_of_mem c h))
      rw [joinSep_cons_cons, splitOnChar, ihp']
      simp [hc]

theorem replaceNlComma_joinSep :
    ∀ (ps : List Str), replaceNlComma (joinSep '\n' ps) = joinSep ',' (ps.map replaceNlComma) := by
  intro ps
  induction ps with
  | nil => rfl
  | cons p qs ih =>
    cases qs with
    | nil => simp [joinSep, replaceNlComma]
    | cons q qs' =>
      show replaceNlComma (p ++ '\n' :: joinSep '\n' (q :: qs')) = _
      rw [show replaceNlComma (p ++ '\n' :: joinSep '\n' (q :: qs')) =
        replaceNlComma p ++ ',' :: replaceNlComma (joinSep '\n' (q :: qs')) by
          simp [replaceNlComma]]
      rw [ih]
      rfl

theorem replaceNlComma_eq_self {s : Str} (h : '\n' ∉ s) : replaceNlComma s = s := by
  unfold replaceNlComma
  induction s with
  | nil => rfl
  | cons c rest ih =>
    simp only [List.map_cons]
    have hc : ¬(c = '\n') := fun hc => h (hc ▸ List.mem_cons_self c rest)
    rw [if_neg hc, ih (fun hm => h (List.mem_cons_of_mem c hm))]

theorem intToStr_ne_nil (i : Int) : intToStr i ≠ [] := by
  unfold intToStr
  split
  · simp
  · exact natToStr_ne_nil _

theorem mem_joinSep {sep c : Char} :
    ∀ {ps : List Str}, c ∈ joinSep sep ps → c = sep ∨ ∃ p ∈ ps, c ∈ p := by
  intro ps
  induction ps with
  | nil => intro h; simp [joinSep] at h
  | cons p qs ih =>
    cases qs with
    | nil => intro h; exact Or.inr ⟨p, List.mem_cons_self p [], h⟩
    | cons q qs' =>
      intro h
      rcases List.mem_append.mp h with h1 | h1
      · exact Or.inr ⟨p, List.mem_cons_self _ _, h1⟩
      · rcases List.mem_cons.mp h1 with h2 | h2
        · exact Or.inl h2
        · rcases ih h2 with h3 | ⟨r, hr, hcr⟩
          · exact Or.inl h3
          · exact Or.inr ⟨r, List.mem_cons_of_mem _ hr, hcr⟩

theorem joinSep_ne_nil (sep : Char) (p : Str) (ps : List Str) (hp : p ≠ []) :
    joinSep sep (p :: ps) ≠ [] := by
  cases ps with
  | nil => exact hp
  | cons q qs =>
    show p ++ sep :: joinSep sep (q :: qs) ≠ []
    simp

theorem joinSep_head? (sep : Char) (p : Str) (ps : List Str) (hp : p ≠ []) :
    (joinSep sep (p :: ps)).head? = p.head? := by
  cases p with
  | nil => exact absurd rfl hp
  | cons c t => cases ps <;> rfl

theorem joinSep_getLast? (sep : Char) :
    ∀ (ps : List Str) (p : Str), (∀ r ∈ p :: ps, r ≠ []) →
      ∃ r ∈ p :: ps, (joinSep sep (p :: ps)).getLast? = r.getLast? := by
  intro ps
  induction ps with
  | nil => intro p _; exact ⟨p, List.mem_cons_self _ _, rfl⟩
  | cons q qs ih =>
    intro p hne
    obtain ⟨r, hr, hlast⟩ := ih q (fun r hr => hne r (List.mem_cons_of_mem p hr))
    refine ⟨r, List.mem_cons_of_mem p hr, ?_⟩
    show (p ++ sep :: joinSep sep (q :: qs)).getLast? = r.getLast?
    rw [List.getLast?_append]
    have hqne : joinSep sep (q :: qs) ≠ [] :=
      joinSep_ne_nil sep q qs (hne q (List.mem_cons_of_mem p (List.mem_cons_self q qs)))
    rw [List.getLast?_cons]
    cases hj : (joinSep sep (q :: qs)).getLast? with
    | none => exact absurd (List.getLast?_eq_none_iff.mp hj) hqne
    | some x =>
      rw [hj] at hlast
      simp [← hlast]

theorem parseChunks_map_intToStr (bs : List Int) : parseChunks (bs.map intToStr) = some bs := by
  induction bs with
  | nil => rfl
  | cons b rest ih =>
    have hstrip : pyStrip (intToStr b) = intToStr b :=
      pyStrip_eq_self_of_all (fun c hc => isNumChar_not_space (intToStr_all_num b c hc))
    rw [List.map_cons, parseChunks, hstrip, if_neg (intToStr_ne_nil b), pyParseInt_intToStr, ih]
    rfl

theorem numChar_ne_comma {c : Char} (h : isNumChar c = true) : c ≠ ',' := by
  intro hc; subst hc; exact absurd h (by decide)

theorem numChar_ne_nl {c : Char} (h : isNumChar c = true) : c ≠ '\n' := by
  intro hc; subst hc; exact absurd h (by decide)

theorem numChar_ne_lbracket {c : Char} (h : isNumChar c = true) : c ≠ '[' := by
  intro hc; subst hc; exact absurd h (by decide)

theorem intToStr_head_num (i : Int) :
    ∃ c, (intToStr i).head? = some c ∧ isNumChar c = true := by
  cases hs : intToStr i with
  | nil => exact absurd hs (intToStr_ne_nil i)
  | cons c t =>
    refine ⟨c, rfl, intToStr_all_num i c ?_⟩
    rw [hs]; exact List.mem_cons_self c t

-- The stripped render is itself: its first and last characters are numeric.

theorem pyStrip_joinSep_map (sep : Char) (b : Int) (rest : List Int) :
    pyStrip (joinSep sep ((b :: rest).map intToStr)) = joinSep sep ((b :: rest).map intToStr) := by
  apply pyStrip_eq_self
  · intro c hc
    rw [List.map_cons, joinSep_head? sep _ _ (intToStr_ne_nil b)] at hc
    obtain ⟨c', hc', hnum⟩ := intToStr_head_num b
    rw [hc'] at hc
    cases hc
    exact isNumChar_not_space hnum
  · intro c hc
    have hne : ∀ r ∈ intToStr b :: rest.map intToStr, r ≠ [] := by
      intro r hr
      rw [← List.map_cons] at hr
      obtain ⟨i, _, hi⟩ := List.mem_map.mp hr
      rw [← hi]
      exact intToStr_ne_nil i
    obtain ⟨r, hr, hlast⟩ := joinSep_getLast? sep (rest.map intToStr) (intToStr b) hne
    rw [List.map_cons, hlast] at hc
    rw [← List.map_cons] at hr
    obtain ⟨i, _, hi⟩ := List.mem_map.mp hr
    have hmem : c ∈ r := List.mem_of_mem_getLast? hc
    rw [← hi] at hmem
    exact isNumChar_not_space (intToStr_all_num i c hmem)

theorem stripBrackets_of_num_head {s : Str} (c : Char) (hc : s.head? = some c)
    (hnum : isNumChar c = true) : stripBrackets s = s := by
  unfold stripBrackets
  rw [if_neg]
  intro ⟨h1, _⟩
  rw [hc] at h1
  exact numChar_ne_lbracket hnum (by injection h1)

theorem no_nl_joinSep_comma (bs : List Int) : '\n' ∉ joinSep ',' (bs.map intToStr) := by
  intro h
  rcases mem_joinSep h with h1 | ⟨p, hp, hcp⟩
  · exact absurd h1 (by decide)
  · obtain ⟨i, _, hi⟩ := List.mem_map.mp hp
    rw [← hi] at hcp
    exact numChar_ne_nl (intToStr_all_num i _ hcp) rfl

theorem no_comma_in_parts (bs : List Int) : ∀ q ∈ bs.map intToStr, ',' ∉ q := by
  intro q hq hc
  obtain ⟨i, _, hi⟩ := List.mem_map.mp hq
  rw [← hi] at hc
  exact numChar_ne_comma (intToStr_all_num i _ hc) rfl

/-- Parsing the cleaned comma-joined rendering recovers the list. -/
theorem parse_comma_core (b : Int) (rest : List Int) :
    parseChunks (splitOnChar ',' (joinSep ',' ((b :: rest).map intToStr))) = some (b :: rest) := by
  rw [List.map_cons,
    splitOnChar_joinSep ',' (rest.map intToStr)
      (fun q hq => no_comma_in_parts rest q hq) (intToStr b)
      (fun hc => numChar_ne_comma (intToStr_all_num b _ hc) rfl),
    ← List.map_cons]
  exact parseChunks_map_intToStr (b :: rest)

/-- The comma notation parses back to the original list. -/
theorem parseBeatsOpt_renderComma (bs : List Int) : parseBeatsOpt (renderComma bs) = some bs := by
  cases bs with
  | nil => decide
  | cons b rest =>
    unfold parseBeatsOpt renderComma
    rw [pyStrip_joinSep_map ',' b rest, List.map_cons]
    rw [if_neg (joinSep_ne_nil ',' _ _ (intToStr_ne_nil b))]
    obtain ⟨c, hc, hnum⟩ := intToStr_head_num b
    rw [stripBrackets_of_num_head c (by rw [joinSep_head? ',' _ _ (intToStr_ne_nil b)]; exact hc) hnum]
    have hnl := no_nl_joinSep_comma (b :: rest)
    rw [List.map_cons] at hnl
    rw [replaceNlComma_eq_self hnl, ← List.map_cons]
    exact parse_comma_core b rest

/-- The line notation parses back to the original list. -/
theorem parseBeatsOpt_renderLines (bs : List Int) : parseBeatsOpt (renderLines bs) = some bs := by
  cases bs with
  | nil => decide
  | cons b rest =>
    unfold parseBeatsOpt renderLines
    rw [pyStrip_joinSep_map '\n' b rest, List.map_cons]
    rw [if_neg (joinSep_ne_nil '\n' _ _ (intToStr_ne_nil b))]
    obtain ⟨c, hc, hnum⟩ := intToStr_head_num b
    rw [stripBrackets_of_num_head c
      (by rw [joinSep_head? '\n' _ _ (intToStr_ne_nil b)]; exact hc) hnum]
    rw [← List.map_cons, replaceNlComma_joinSep]
    have hmap : ((b :: rest).map intToStr).map replaceNlComma = (b :: rest).map intToStr := by
      have harg : ∀ p ∈ (b :: rest).map intToStr, replaceNlComma p = p := by
        intro p hp
        obtain ⟨i, _, hi⟩ := List.mem_map.mp hp
        rw [← hi]
        exact replaceNlComma_eq_self (fun hm => numChar_ne_nl (intToStr_all_num i _ hm) rfl)
      calc ((b :: rest).map intToStr).map replaceNlComma
          = ((b :: rest).map intToStr).map id := List.map_congr_left harg
        _ = (b :: rest).map intToStr := List.map_id _
    rw [hmap]
    exact parse_comma_core b rest

/-- The array notation parses back to the original list. -/
theorem parseBeatsOpt_renderArray (bs : List Int) : parseBeatsOpt (renderArray bs) = some bs := by
  cases bs with
  | nil => decide
  | cons b rest =>
    unfold parseBeatsOpt renderArray renderComma
    have hconcat : '[' :: (joinSep ',' ((b :: rest).map intToStr) ++ [']']) =
        ('[' :: joinSep ',' ((b :: rest).map intToStr)) ++ [']'] := by simp
    have hlast : ('[' :: (joinSep ',' ((b :: rest).map intToStr) ++ [']'])).getLast? = some ']' := by
      rw [hconcat]
      exact List.getLast?_concat _
    have hstrip : pyStrip ('[' :: (joinSep ',' ((b :: rest).map intToStr) ++ [']'])) =
        '[' :: (joinSep ',' ((b :: rest).map intToStr) ++ [']']) := by
      apply pyStrip_eq_self
      · intro c hc
        injection hc with hc
        rw [← hc]
        rfl
      · intro c hc
        rw [hlast] at hc
        injection hc with hc
        rw [← hc]
        rfl
    rw [hstrip]
    rw [if_neg (by simp)]
    have hsb : stripBrackets ('[' :: (joinSep ',' ((b :: rest).map intToStr) ++ [']'])) =
        joinSep ',' ((b :: rest).map intToStr) := by
      unfold stripBrackets
      rw [if_pos ⟨rfl, hlast⟩]
      show ((('[' :: (joinSep ',' ((b :: rest).map intToStr) ++ [']'])).drop 1)).dropLast = _
      rw [List.drop_one, List.tail_cons, List.dropLast_concat]
    rw [hsb]
    have hnl := no_nl_joinSep_comma (b :: rest)
    rw [replaceNlComma_eq_self hnl]
    exact parse_comma_core b rest

/-- The node's output depends on the beats string only through its parse. -/
theorem calc_congr_parse {b1 b2 : Str} (h : parseBeatsOpt b1 = parseBeatsOpt b2) (step : Int) :
    calculate_sequence_shot step b1 = calculate_sequence_shot step b2 := by
  unfold calculate_sequence_shot beatListOf
  rw [h]

/-- C2: the comma-separated, one-per-line and bracketed array notations give
identical node outputs for every beat list and step. -/
theorem shotHelper_notations_agree (bs : List Int) (step : Int) :
    calculate_sequence_shot step (renderLines bs) = calculate_sequence_shot step (renderComma bs)
    ∧ calculate_sequence_shot step (renderArray bs) =
        calculate_sequence_shot step (renderComma bs) :=
  ⟨calc_congr_parse (by rw [parseBeatsOpt_renderLines, parseBeatsOpt_renderComma]) step,
   calc_congr_parse (by rw [parseBeatsOpt_renderArray, parseBeatsOpt_renderComma]) step⟩

/-! ## MF_GraphPlotter (src/nodes/visualization.py)

The JSON state file is modelled as the dictionary it serializes: an
association list from node ids to a pair of parallel lists `(x_data, y_data)`.
`_read_graph_state` / `_write_graph_state` are load/store of that dictionary,
so each node method is a function on the dictionary. -/

/-- One node's entry: `x_data` and `y_data` (Python ints). -/
abbrev GraphEntry := List Int × List Int

/-- The persisted dictionary, keyed by node id, in insertion order. -/
abbrev GraphState := List (Str × GraphEntry)

/-- Python `d[k]` lookup (`k in d` exactly when `some`). -/
def lookupEntry {α : Type} : List (Str × α) → Str → Option α
  | [], _ => none
  | (k', v) :: rest, k => if k' = k then some v else lookupEntry rest k

/-- Python `d[k] = v`: update in place, or append a new key at the end. -/
def setEntry {α : Type} : List (Str × α) → Str → α → List (Str × α)
  | [], k, v => [(k, v)]
  | (k', v') :: rest, k, v =>
    if k' = k then (k, v) :: rest else (k', v') :: setEntry rest k v

/-- `node_id = str(unique_id) if unique_id else "default"`. -/
def nodeIdOf (unique_id : Option Str) : Str :=
  match unique_id with
  | none => "default".data
  | some s => if s = [] then "default".data else s

/-- Data sent to the front end by `plot_graph`. -/
structure GraphUI where
  x_values : List Int
  y_values : List Int
  node_id : Str
  point_count : Nat
deriving DecidableEq

/-- `MF_GraphPlotter.plot_graph`: read state, get-or-create the node entry,
append `X = len(x_data) + 1` and `Y`, write state back. -/
def plot_graph (st : GraphState) (Y : Int) (unique_id : Option Str) : GraphState × GraphUI :=
  let node_id := nodeIdOf unique_id
  let nd := (lookupEntry st node_id).getD ([], [])
  let X : Int := (nd.1.length : Int) + 1
  let nd' : GraphEntry := (nd.1 ++ [X], nd.2 ++ [Y])
  (setEntry st node_id nd',
   { x_values := nd'.1, y_values := nd'.2, node_id := node_id,
     point_count := nd'.1.length })

/-- `MF_GraphPlotter.reset_node_data`: set the node's entry to two empty lists. -/
def reset_node_data (st : GraphState) (node_id : Str) : GraphState :=
  setEntry st node_id ([], [])

/-- `[1, 2, ..., n]` as Python ints. -/
def iotaInt : Nat → List Int
  | 0 => []
  | n + 1 => iotaInt n ++ [((n : Int) + 1)]

/-- The per-entry invariant: parallel lists, `x_data = [1..n]`. -/
def goodState (st : GraphState) : Prop :=
  ∀ p ∈ st, p.2.1.length = p.2.2.length ∧ p.2.1 = iotaInt p.2.1.length

instance (st : GraphState) : Decidable (goodState st) := by
  unfold goodState
  infer_instance

/-- States reachable from the empty store by plot and reset calls. -/
inductive ReachableGraph : GraphState → Prop
  | empty : ReachableGraph []
  | plot (st : GraphState) (Y : Int) (uid : Option Str) (h : ReachableGraph st) :
      ReachableGraph (plot_graph st Y uid).1
  | reset (st : GraphState) (node_id : Str) (h : ReachableGraph st) :
      ReachableGraph (reset_node_data st node_id)

-- setEntry membership: a member of the updated list is the new pair or an
-- untouched old pair.

theorem mem_setEntry {α : Type} {st : List (Str × α)} {k : Str} {v : α} {p : Str × α} :
    p ∈ setEntry st k v → p = (k, v) ∨ p ∈ st := by
  induction st with
  | nil => intro h; simp [setEntry] at h; simp [h]
  | cons q rest ih =>
    intro h
    unfold setEntry at h
    by_cases hk : q.1 = k
    · rw [if_pos hk] at h
      rcases List.mem_cons.mp h with h1 | h1
      · exact Or.inl h1
      · exact Or.inr (List.mem_cons_of_mem _ h1)
    · rw [if_neg hk] at h
      rcases List.mem_cons.mp h with h1 | h1
      · exact Or.inr (h1 ▸ List.mem_cons_self _ _)
      · rcases ih h1 with h2 | h2
        · exact Or.inl h2
        · exact Or.inr (List.mem_cons_of_mem _ h2)

theorem lookupEntry_setEntry_self {α : Type} (st : List (Str × α)) (k : Str) (v : α) :
    lookupEntry (setEntry st k v) k = some v := by
  induction st with
  | nil => simp [setEntry, lookupEntry]
  | cons q rest ih =>
    unfold setEntry
    by_cases hk : q.1 = k
    · rw [if_pos hk]
      simp [lookupEntry]
    · rw [if_neg hk]
      show lookupEntry ((q.1, q.2) :: setEntry rest k v) k = some v
      unfold lookupEntry
      rw [if_neg hk]
      exact ih

theorem lookupEntry_setEntry_other {α : Type} (st : List (Str × α)) (k k' : Str) (v : α)
    (hne : k' ≠ k) : lookupEntry (setEntry st k v) k' = lookupEntry st k' := by
  induction st with
  | nil =>
    simp only [setEntry, lookupEntry]
    rw [if_neg (fun h => hne h.symm)]
  | cons q rest ih =>
    unfold setEntry
    by_cases hk : q.1 = k
    · rw [if_pos hk]
      show lookupEntry ((k, v) :: rest) k' = lookupEntry (q :: rest) k'
      unfold lookupEntry
      rw [if_neg (fun h => hne h.symm), if_neg (by rw [hk]; exact fun h => hne h.symm)]
    · rw [if_neg hk]
      show lookupEntry ((q.1, q.2) :: setEntry rest k v) k' = lookupEntry (q :: rest) k'
      unfold lookupEntry
      by_cases hq : q.1 = k'
      · rw [if_pos hq, if_pos hq]
      · rw [if_neg hq, if_neg hq]
        exact ih

theorem lookupEntry_mem {α : Type} {st : List (Str × α)} {k : Str} {v : α}
    (h : lookupEntry st k = some v) : (k, v) ∈ st := by
  induction st with
  | nil => simp [lookupEntry] at h
  | cons q rest ih =>
    unfold lookupEntry at h
    by_cases hk : q.1 = k
    · rw [if_pos hk] at h
      injection h with h
      have : q = (k, v) := by
        cases q
        simp at hk h
        simp [hk, h]
      rw [← this]
      exact List.mem_cons_self _ _
    · rw [if_neg hk] at h
      exact List.mem_cons_of_mem _ (ih h)

/-- C3: in every state reachable from the empty store by plot and reset
calls, every entry has parallel `x_data`/`y_data` and `x_data = [1..n]`. -/
theorem graphPlotter_invariant (st : GraphState) (h : ReachableGraph st) : goodState st := by
  induction h with
  | empty => intro p hp; simp at hp
  | plot st Y uid _ ih =>
    intro p hp
    simp only [plot_graph] at hp
    rcases mem_setEntry hp with h1 | h1
    · subst h1
      cases hl : lookupEntry st (nodeIdOf uid) with
      | none =>
        refine ⟨by simp, ?_⟩
        simp [iotaInt]
      | some e =>
        have he := ih (nodeIdOf uid, e) (lookupEntry_mem hl)
        refine ⟨by simp [he.1], ?_⟩
        simp only [Option.getD_some]
        show e.1 ++ [((e.1.length : Int) + 1)] = iotaInt (e.1 ++ [((e.1.length : Int) + 1)]).length
        rw [List.length_append, List.length_cons, List.length_nil, Nat.zero_add, iotaInt, ← he.2]
    · exact ih p h1
  | reset st nid _ ih =>
    intro p hp
    rcases mem_setEntry hp with h1 | h1
    · subst h1
      exact ⟨rfl, rfl⟩
    · exact ih p h1

/-- Concrete node ids used by closed witnesses. -/
def nodeA : Str := "a".data

/-- A second concrete node id used by closed witnesses. -/
def nodeB : Str := "b".data

/-- Witness for C3 at a concrete reachable state (two plots, one reset). -/
theorem graphPlotter_invariant_witness :
    goodState (reset_node_data (plot_graph (plot_graph [] 5 (some nodeA)).1 7 (some nodeA)).1
      nodeB) :=
  graphPlotter_invariant _
    (ReachableGraph.reset _ nodeB
      (ReachableGraph.plot _ 7 (some nodeA)
        (ReachableGraph.plot _ 5 (some nodeA) ReachableGraph.empty)))

/-- C4: `plot_graph` appends exactly the point
`(previous x-count + 1, Y)` to the adressed node's entry and leaves every
other node's entry unchanged. -/
theorem plot_graph_append (st : GraphState) (Y : Int) (uid : Option Str) :
    lookupEntry (plot_graph st Y uid).1 (nodeIdOf uid) =
      some (((lookupEntry st (nodeIdOf uid)).getD ([], [])).1 ++
              [(((lookupEntry st (nodeIdOf uid)).getD ([], [])).1.length : Int) + 1],
            ((lookupEntry st (nodeIdOf uid)).getD ([], [])).2 ++ [Y])
    ∧ ∀ k, k ≠ nodeIdOf uid →
        lookupEntry (plot_graph st Y uid).1 k = lookupEntry st k := by
  constructor
  · simp only [plot_graph]
    exact lookupEntry_setEntry_self st _ _
  · intro k hk
    simp only [plot_graph]
    exact lookupEntry_setEntry_other st _ k _ hk

/-- Witness for C4: a plot on node `a` leaves node `b`'s entry unchanged. -/
theorem plot_graph_append_witness :
    lookupEntry (plot_graph [] 5 (some nodeA)).1 nodeB = lookupEntry [] nodeB :=
  (plot_graph_append [] 5 (some nodeA)).2 nodeB (by decide)

/-! ## MF_StoryDriver (src/nodes/sequencing.py)

The module-level `_steps` dictionary is modelled as an association list from
project names to Python ints, threaded through the functions explicitly. -/

/-- The `_steps` dictionary. -/
abbrev Steps := List (Str × Int)

/-- Python `str.replace(" ", "_")`. -/
def pyReplaceSpaceUnderscore (s : Str) : Str := s.map (fun c => if c = ' ' then '_' else c)

/-- Outputs of `MF_StoryDriver.execute` (ui status text plus the result tuple). -/
structure StoryDriverOutput where
  status_display : Str
  step_int : Int
  step_str : Str
  projectName_out : Str
  saveFolder : Str
  storySeed_out : Int
deriving DecidableEq

/-- `MF_StoryDriver.execute`: read the step, store step + 1, return outputs. -/
def storyDriver_execute (steps : Steps) (projectName : Str) (storySeed : Int) :
    Steps × StoryDriverOutput :=
  let current_step := (lookupEntry steps projectName).getD 0
  let steps' := setEntry steps projectName (current_step + 1)
  let project_name_output := pyReplaceSpaceUnderscore projectName
  (steps',
   { status_display := "Step: ".data ++ intToStr current_step ++ " | Seed: ".data
       ++ intToStr storySeed
     step_int := current_step
     step_str := intToStr current_step
     projectName_out := project_name_output
     saveFolder := project_name_output ++ '_' :: intToStr storySeed
     storySeed_out := storySeed })

/-- `MF_StoryDriver.reset_project`: set the stored step to 0. -/
def reset_project (steps : Steps) (project_name : Str) : Steps :=
  setEntry steps project_name 0

/-- State after `n` consecutive `execute` calls for the same project. -/
def iterExec (steps : Steps) (pn : Str) (seed : Int) : Nat → Steps
  | 0 => steps
  | n + 1 => (storyDriver_execute (iterExec steps pn seed n) pn seed).1

theorem lookup_iterExec_reset (steps : Steps) (pn : Str) (seed : Int) :
    ∀ j, lookupEntry (iterExec (reset_project steps pn) pn seed j) pn = some ((j : Nat) : Int) := by
  intro j
  induction j with
  | zero => exact lookupEntry_setEntry_self steps pn 0
  | succ n ih =>
    show lookupEntry (storyDriver_execute (iterExec (reset_project steps pn) pn seed n)
      pn seed).1 pn = some (((n + 1 : Nat) : Nat) : Int)
    unfold storyDriver_execute
    rw [lookupEntry_setEntry_self, ih]
    simp

/-- C5: `execute` returns the stored step (0 when absent) and its decimal
string, then stores step + 1; `reset_project` stores 0; the `(j+1)`-th
execute after a reset returns `j`. -/
theorem storyDriver_counter (steps : Steps) (pn : Str) (seed : Int) (j : Nat) :
    (storyDriver_execute steps pn seed).2.step_int = (lookupEntry steps pn).getD 0
    ∧ (storyDriver_execute steps pn seed).2.step_str = intToStr ((lookupEntry steps pn).getD 0)
    ∧ lookupEntry (storyDriver_execute steps pn seed).1 pn =
        some ((lookupEntry steps pn).getD 0 + 1)
    ∧ lookupEntry (reset_project steps pn) pn = some 0
    ∧ (storyDriver_execute (iterExec (reset_project steps pn) pn seed j) pn seed).2.step_int =
        (j : Int) := by
  refine ⟨rfl, rfl, ?_, lookupEntry_setEntry_self steps pn 0, ?_⟩
  · unfold storyDriver_execute
    exact lookupEntry_setEntry_self steps pn _
  · show ((lookupEntry (iterExec (reset_project steps pn) pn seed j) pn).getD 0) = (j : Int)
    rw [lookup_iterExec_reset steps pn seed j]
    rfl

/-! ## MF_ModuloAdvanced (src/nodes/math.py) -/

/-- Outputs of `MF_ModuloAdvanced.apply_modulo_advanced` (ui text plus result tuple). -/
structure ModuloOutput where
  text : Str
  modulo_result_int : Int
  modulo_result_string : Str
  cycle_count_int : Int
  cycle_count_string : Str
deriving DecidableEq

/-- `MF_ModuloAdvanced.apply_modulo_advanced`: Python `%` and `//` are floor
modulus and floor division (`Int.fmod` / `Int.fdiv`). -/
def apply_modulo_advanced (input_number modulo_value : Int) : ModuloOutput :=
  let modulo_result := Int.fmod input_number modulo_value
  let cycle_count := Int.fdiv input_number modulo_value
  { text := "🔢 ".data ++ intToStr input_number ++ " mod ".data ++ intToStr modulo_value
      ++ " = ".data ++ intToStr modulo_result ++ "\n🔄 Cycle: ".data ++ intToStr cycle_count
    modulo_result_int := modulo_result
    modulo_result_string := intToStr modulo_result
    cycle_count_int := cycle_count
    cycle_count_string := intToStr cycle_count }

/-- C6: over the node's input ranges the outputs satisfy the floor-division
identity with a remainder in `[0, modulo_value)`, and the string outputs are
the decimal renderings. -/
theorem moduloAdvanced_division (input_number modulo_value : Int)
    (_h1 : -999999 ≤ input_number) (_h2 : input_number ≤ 999999)
    (h3 : 1 ≤ modulo_value) (_h4 : modulo_value ≤ 999999) :
    input_number =
      (apply_modulo_advanced input_number modulo_value).cycle_count_int * modulo_value
        + (apply_modulo_advanced input_number modulo_value).modulo_result_int
    ∧ 0 ≤ (apply_modulo_advanced input_number modulo_value).modulo_result_int
    ∧ (apply_modulo_advanced input_number modulo_value).modulo_result_int < modulo_value
    ∧ (apply_modulo_advanced input_number modulo_value).modulo_result_string =
        intToStr ((apply_modulo_advanced input_number modulo_value).modulo_result_int)
    ∧ (apply_modulo_advanced input_number modulo_value).cycle_count_string =
        intToStr ((apply_modulo_advanced input_number modulo_value).cycle_count_int) := by
  have hb : (0 : Int) ≤ modulo_value := by omega
  have hbne : modulo_value ≠ 0 := by omega
  have hbpos : (0 : Int) < modulo_value := h3
  refine ⟨?_, ?_, ?_, rfl, rfl⟩
  · show input_number =
      Int.fdiv input_number modulo_value * modulo_value + Int.fmod input_number modulo_value
    have hid := Int.fdiv_add_fmod input_number modulo_value
    rw [Int.mul_comm] at hid
    omega
  · show 0 ≤ Int.fmod input_number modulo_value
    rw [Int.fmod_eq_emod input_number hb]
    exact Int.emod_nonneg input_number hbne
  · show Int.fmod input_number modulo_value < modulo_value
    rw [Int.fmod_eq_emod input_number hb]
    exact Int.emod_lt_of_pos input_number hbpos

/-- Witness for C6 at `input_number = -7`, `modulo_value = 3`. -/
theorem moduloAdvanced_division_witness :
    (-7 : Int) =
      (apply_modulo_advanced (-7) 3).cycle_count_int * 3
        + (apply_modulo_advanced (-7) 3).modulo_result_int
    ∧ 0 ≤ (apply_modulo_advanced (-7) 3).modulo_result_int
    ∧ (apply_modulo_advanced (-7) 3).modulo_result_int < 3
    ∧ (apply_modulo_advanced (-7) 3).modulo_result_string =
        intToStr ((apply_modulo_advanced (-7) 3).modulo_result_int)
    ∧ (apply_modulo_advanced (-7) 3).cycle_count_string =
        intToStr ((apply_modulo_advanced (-7) 3).cycle_count_int) :=
  moduloAdvanced_division (-7) 3 (by norm_num) (by norm_num) (by norm_num) (by norm_num)

/-! ## Server route `/graph_plotter/reset` (src/server/routes.py)

The handler is modelled on the value of `data.get("node_id")`: `none` when the
JSON body has no `node_id` key; Python truthiness of a string is nonemptiness. -/

/-- An HTTP JSON response of the reset endpoint: status code and success flag. -/
structure ResetResponse where
  status : Nat
  success : Bool
deriving DecidableEq

/-- `reset_graph_plotter`: 400 and no state change when `node_id` is missing
or empty (falsy), otherwise reset that node's entry and return success. -/
def reset_graph_plotter (st : GraphState) (node_id : Option Str) : GraphState × ResetResponse :=
  match node_id with
  | none => (st, { status := 400, success := false })
  | some nid =>
    if nid = [] then (st, { status := 400, success := false })
    else (reset_node_data st nid, { status := 200, success := true })

/-- C7: a missing or empty `node_id` yields status 400, `success = false` and
an unchanged store; a nonempty `node_id` yields `success = true`, that node's
entry set to two empty lists, and every other entry unchanged. -/
theorem reset_endpoint_spec (st : GraphState) (node_id : Option Str) :
    ((node_id = none ∨ node_id = some []) →
      (reset_graph_plotter st node_id).1 = st
      ∧ (reset_graph_plotter st node_id).2.status = 400
      ∧ (reset_graph_plotter st node_id).2.success = false)
    ∧ (∀ nid, node_id = some nid → nid ≠ [] →
      (reset_graph_plotter st node_id).2.success = true
      ∧ lookupEntry (reset_graph_plotter st node_id).1 nid = some ([], [])
      ∧ ∀ k, k ≠ nid → lookupEntry (reset_graph_plotter st node_id).1 k = lookupEntry st k) := by
  constructor
  · intro h
    rcases h with h | h <;> subst h
    · exact ⟨rfl, rfl, rfl⟩
    · exact ⟨rfl, rfl, rfl⟩
  · intro nid hnid hne
    subst hnid
    refine ⟨?_, ?_, ?_⟩
    · simp [reset_graph_plotter, if_neg hne]
    · simp only [reset_graph_plotter, if_neg hne]
      exact lookupEntry_setEntry_self st nid ([], [])
    · intro k hk
      simp only [reset_graph_plotter, if_neg hne]
      exact lookupEntry_setEntry_other st nid k ([], []) hk

/-- Witness for C7: resetting node `a` succeeds and leaves node `b` unchanged. -/
theorem reset_endpoint_spec_witness :
    (reset_graph_plotter [(nodeB, ([1], [4]))] (some nodeA)).2.success = true
    ∧ lookupEntry (reset_graph_plotter [(nodeB, ([1], [4]))] (some nodeA)).1 nodeA =
        some ([], [])
    ∧ ∀ k, k ≠ nodeA →
        lookupEntry (reset_graph_plotter [(nodeB, ([1], [4]))] (some nodeA)).1 k =
          lookupEntry [(nodeB, ([1], [4]))] k :=
  (reset_endpoint_spec [(nodeB, ([1], [4]))] (some nodeA)).2 nodeA rfl (by decide)

/-! ## MF_LineSelect (src/nodes/text.py) -/

/-- Python `text.replace("\r\n", "\n")`: left-to-right, non-overlapping. -/
def replaceCRLF : Str → Str
  | [] => []
  | '\r' :: '\n' :: rest => '\n' :: replaceCRLF rest
  | c :: rest => c :: replaceCRLF rest

/-- Python `text.replace("\r", "\n")`. -/
def replaceCR (s : Str) : Str := s.map (fun c => if c = '\r' then '\n' else c)

/-- `_normalize_text_lines`: normalize line endings, split on newlines. -/
def normalize_text_lines (text : Str) : List Str :=
  splitOnChar '\n' (replaceCR (replaceCRLF text))

/-- `MF_LineSelect.select_line`: the selected line, or the out-of-range
warning message on its normal output. -/
def select_line (text : Str) (line_index : Int) : Str :=
  let lines := normalize_text_lines text
  if line_index < 0 ∨ ((lines.length : Nat) : Int) ≤ line_index then
    "⚠️ Line index ".data ++ intToStr line_index ++ " out of range (0-".data
      ++ intToStr (((lines.length : Nat) : Int) - 1) ++ ")".data
  else lines.getD line_index.toNat []

/-- C10: an in-range index returns exactly that line of the normalized split;
an out-of-range index returns the formatted warning string, not an exception
or an empty string. -/
theorem lineSelect_spec (text : Str) (line_index : Int) :
    (0 ≤ line_index → line_index < ((normalize_text_lines text).length : Int) →
      select_line text line_index = (normalize_text_lines text).getD line_index.toNat [])
    ∧ ((line_index < 0 ∨ ((normalize_text_lines text).length : Int) ≤ line_index) →
      select_line text line_index =
        "⚠️ Line index ".data ++ intToStr line_index ++ " out of range (0-".data
          ++ intToStr (((normalize_text_lines text).length : Int) - 1) ++ ")".data) := by
  constructor
  · intro h1 h2
    unfold select_line
    rw [if_neg (by omega)]
  · intro h
    unfold select_line
    rw [if_pos h]

/-- Concrete text used by the C10 witness. -/
def textExample : Str := "ab\ncd".data

/-- Witness for C10: selecting line 1 of `"ab\ncd"`. -/
theorem lineSelect_spec_witness :
    select_line textExample 1 = (normalize_text_lines textExample).getD (1 : Int).toNat [] :=
  (lineSelect_spec textExample 1).1 (by decide) (by decide)

/-! ## JSON (Python `json` module, as used by src/nodes/data.py)

`json.loads` / `json.dumps(..., indent=2, ensure_ascii=False)` are modelled
over a JSON value type whose numbers are Python ints; inputs with float
literals (fractions or exponents) fall outside the model's parser. -/

/-- The opening-brace character, code point 123. -/
def lbraceChar : Char := Char.ofNat 123

/-- The closing-brace character, code point 125. -/
def rbraceChar : Char := Char.ofNat 125

/-- JSON values; objects keep their members in insertion order. -/
inductive Json where
  | null : Json
  | bool (b : Bool) : Json
  | num (n : Int) : Json
  | str (s : Str) : Json
  | arr (xs : List Json) : Json
  | obj (kvs : List (Str × Json)) : Json

/-- Lowercase hex digit, as `"\u%04x" % code` renders it. -/
def hexDigit (d : Nat) : Char :=
  if d < 10 then Char.ofNat (48 + d) else Char.ofNat (87 + d)

/-- The escaping of one character by `json.dumps` with `ensure_ascii=False`:
quote, backslash and control characters are escaped, all else is literal. -/
def escapeChar (c : Char) : Str :=
  if c = '"' then ['\\', '"']
  else if c = '\\' then ['\\', '\\']
  else if c = '\n' then ['\\', 'n']
  else if c = '\r' then ['\\', 'r']
  else if c = '\t' then ['\\', 't']
  else if c.toNat = 8 then ['\\', 'b']
  else if c.toNat = 12 then ['\\', 'f']
  else if c.toNat < 32 then ['\\', 'u', '0', '0', hexDigit (c.toNat / 16), hexDigit (c.toNat % 16)]
  else [c]

/-- Escape a whole string (content between the quotes). -/
def escapeString : Str → Str
  | [] => []
  | c :: rest => escapeChar c ++ escapeString rest

/-- `n` spaces. -/
def indentStr (n : Nat) : Str := List.replicate n ' '

mutual

/-- `json.dumps(v, indent=2, ensure_ascii=False)` at indentation `ind`. -/
def dumpsVal : Json → Nat → Str
  | .null, _ => "null".data
  | .bool b, _ => if b then "true".data else "false".data
  | .num n, _ => intToStr n
  | .str s, _ => '"' :: (escapeString s ++ ['"'])
  | .arr [], _ => "[]".data
  | .arr (x :: xs), ind =>
    '[' :: '\n' :: (indentStr (ind + 2) ++ dumpsItems x xs (ind + 2)
      ++ '\n' :: (indentStr ind ++ [']']))
  | .obj [], _ => [lbraceChar, rbraceChar]
  | .obj (m :: ms), ind =>
    lbraceChar :: '\n' :: (indentStr (ind + 2) ++ dumpsMembers m ms (ind + 2)
      ++ '\n' :: (indentStr ind ++ [rbraceChar]))
termination_by v _ => sizeOf v
decreasing_by all_goals (simp_wf; omega)

/-- Array items joined by `",\n" + indent`. -/
def dumpsItems : Json → List Json → Nat → Str
  | x, [], ind => dumpsVal x ind
  | x, y :: ys, ind => dumpsVal x ind ++ ',' :: '\n' :: (indentStr ind ++ dumpsItems y ys ind)
termination_by x ys _ => sizeOf x + sizeOf ys + 1
decreasing_by all_goals (simp_wf; omega)

/-- Object members `"key": value` joined by `",\n" + indent`. -/
def dumpsMembers : Str × Json → List (Str × Json) → Nat → Str
  | (k, v), [], ind => '"' :: (escapeString k ++ '"' :: ':' :: ' ' :: dumpsVal v ind)
  | (k, v), m :: ms, ind =>
    ('"' :: (escapeString k ++ '"' :: ':' :: ' ' :: dumpsVal v ind))
      ++ ',' :: '\n' :: (indentStr ind ++ dumpsMembers m ms ind)
termination_by m ms _ => sizeOf m + sizeOf ms + 1
decreasing_by all_goals (simp_wf; omega)

end

/-- Top-level `json.dumps(v, indent=2, ensure_ascii=False)`. -/
def json_dumps (v : Json) : Str := dumpsVal v 0

/-- JSON whitespace accepted by the `json.loads` scanner. -/
def isJsonWs (c : Char) : Bool := c = ' ' || c = '\t' || c = '\n' || c = '\r'

/-- Skip JSON whitespace. -/
def skipWs (s : Str) : Str := s.dropWhile isJsonWs

/-- The literal `null`. -/
def nullLit : Str := "null".data

/-- The literal `true`. -/
def trueLit : Str := "true".data

/-- The literal `false`. -/
def falseLit : Str := "false".data

/-- Value of a hex digit character. -/
def hexVal (c : Char) : Option Nat :=
  if isDigitChar c then some (c.toNat - 48)
  else if 97 ≤ c.toNat ∧ c.toNat ≤ 102 then some (c.toNat - 87)
  else if 65 ≤ c.toNat ∧ c.toNat ≤ 70 then some (c.toNat - 55)
  else none

/-- Decode a single-character string escape. -/
def escDecode (e : Char) : Option Char :=
  if e = '"' then some '"'
  else if e = '\\' then some '\\'
  else if e = '/' then some '/'
  else if e = 'b' then some (Char.ofNat 8)
  else if e = 'f' then some (Char.ofNat 12)
  else if e = 'n' then some '\n'
  else if e = 'r' then some '\r'
  else if e = 't' then some '\t'
  else none

/-- Scan a JSON string body after the opening quote, returning content and
rest after the closing quote; unescaped control characters are rejected
(`strict=True`). -/
def parseStringBody : Str → Option (Str × Str)
  | [] => none
  | c :: rest =>
    if c = '"' then some ([], rest)
    else if c = '\\' then
      match rest with
      | [] => none
      | e :: rest2 =>
        if e = 'u' then
          match rest2 with
          | h1 :: h2 :: h3 :: h4 :: rest3 =>
            match hexVal h1, hexVal h2, hexVal h3, hexVal h4 with
            | some a, some b, some c2, some d2 =>
              (parseStringBody rest3).map
                (fun r => (Char.ofNat (((a * 16 + b) * 16 + c2) * 16 + d2) :: r.1, r.2))
            | _, _, _, _ => none
          | _ => none
        else
          match escDecode e with
          | some ch => (parseStringBody rest2).map (fun r => (ch :: r.1, r.2))
          | none => none
    else if c.toNat < 32 then none
    else (parseStringBody rest).map (fun r => (c :: r.1, r.2))

/-- Scan an unsigned JSON integer: `0`, or a nonzero digit then digits
(the `NUMBER_RE` integer part; fractions and exponents are not modelled). -/
def parseNumNat : Str → Option (Nat × Str)
  | [] => none
  | c :: rest =>
    if c = '0' then some (0, rest)
    else if isDigitChar c then
      some (digitsVal ((c :: rest).takeWhile isDigitChar), (c :: rest).dropWhile isDigitChar)
    else none

/-- Scan a JSON integer with optional minus sign. -/
def parseNum : Str → Option (Int × Str)
  | '-' :: rest => (parseNumNat rest).map (fun r => (-(r.1 : Int), r.2))
  | s => (parseNumNat s).map (fun r => ((r.1 : Int), r.2))

mutual

/-- Scan one JSON value (fuel-bounded recursion; `json_loads` supplies
enough fuel for any input). -/
def parseVal : Nat → Str → Option (Json × Str)
  | 0, _ => none
  | fuel + 1, s0 =>
    let s := skipWs s0
    if s.take 4 = nullLit then some (.null, s.drop 4)
    else if s.take 4 = trueLit then some (.bool true, s.drop 4)
    else if s.take 5 = falseLit then some (.bool false, s.drop 5)
    else
      match s with
      | [] => none
      | c :: rest =>
        if c = '"' then (parseStringBody rest).map (fun r => (Json.str r.1, r.2))
        else if c = '[' then parseArrBody fuel (skipWs rest)
        else if c = lbraceChar then parseObjBody fuel (skipWs rest)
        else (parseNum (c :: rest)).map (fun r => (Json.num r.1, r.2))

/-- Scan an array after `[` (whitespace already skipped). -/
def parseArrBody : Nat → Str → Option (Json × Str)
  | 0, _ => none
  | fuel + 1, s =>
    match s with
    | [] => none
    | c :: rest =>
      if c = ']' then some (.arr [], rest)
      else
        match parseVal fuel (c :: rest) with
        | none => none
        | some (v, r) => parseArrItems fuel r [v]

/-- Scan `, value`* `]` after the first array item. -/
def parseArrItems : Nat → Str → List Json → Option (Json × Str)
  | 0, _, _ => none
  | fuel + 1, s, acc =>
    match skipWs s with
    | [] => none
    | c :: rest =>
      if c = ',' then
        match parseVal fuel rest with
        | none => none
        | some (v, r) => parseArrItems fuel r (acc ++ [v])
      else if c = ']' then some (.arr acc, rest)
      else none

/-- Scan an object after the opening brace (whitespace already skipped);
members land in a dict, so a repeated key overwrites in place. -/
def parseObjBody : Nat → Str → Option (Json × Str)
  | 0, _ => none
  | fuel + 1, s =>
    match s with
    | [] => none
    | c :: rest =>
      if c = rbraceChar then some (.obj [], rest)
      else if c = '"' then
        match parseStringBody rest with
        | none => none
        | some (k, r1) =>
          match skipWs r1 with
          | [] => none
          | c2 :: r2 =>
            if c2 = ':' then
              match parseVal fuel r2 with
              | none => none
              | some (v, r3) => parseObjItems fuel r3 (setEntry [] k v)
            else none
      else none

/-- Scan `, "key": value`* and the closing brace after the first member. -/
def parseObjItems : Nat → Str → List (Str × Json) → Option (Json × Str)
  | 0, _, _ => none
  | fuel + 1, s, acc =>
    match skipWs s with
    | [] => none
    | c :: rest =>
      if c = ',' then
        match skipWs rest with
        | [] => none
        | c1 :: r0 =>
          if c1 = '"' then
            match parseStringBody r0 with
            | none => none
            | some (k, r1) =>
              match skipWs r1 with
              | [] => none
              | c2 :: r2 =>
                if c2 = ':' then
                  match parseVal fuel r2 with
                  | none => none
                  | some (v, r3) => parseObjItems fuel r3 (setEntry acc k v)
                else none
          else none
      else if c = rbraceChar then some (.obj acc, rest)
      else none

end

/-- `json.loads`: scan one value and require only whitespace after it. -/
def json_loads (s : Str) : Option Json :=
  match parseVal (s.length + 1) s with
  | some (v, rest) => if skipWs rest = [] then some v else none
  | none => none

mutual

/-- Fuel bound for parsing a dumped value. -/
def jsize : Json → Nat
  | .null | .bool _ | .num _ | .str _ => 1
  | .arr xs => 2 + jsizeL xs
  | .obj kvs => 2 + jsizeO kvs

/-- Fuel bound for an item list. -/
def jsizeL : List Json → Nat
  | [] => 0
  | x :: xs => 1 + jsize x + jsizeL xs

/-- Fuel bound for a member list. -/
def jsizeO : List (Str × Json) → Nat
  | [] => 0
  | (_, v) :: ms => 1 + jsize v + jsizeO ms

end

/-- No key occurs twice (Python dicts cannot represent duplicates). -/
def nodupKeys : List (Str × Json) → Bool
  | [] => true
  | (k, _) :: ms => !(ms.any (fun m => m.1 = k)) && nodupKeys ms

mutual

/-- A value representable by a Python object: object keys never repeat. -/
def jwf : Json → Bool
  | .null | .bool _ | .num _ | .str _ => true
  | .arr xs => jwfL xs
  | .obj kvs => nodupKeys kvs && jwfO kvs

/-- All array elements well-formed. -/
def jwfL : List Json → Bool
  | [] => true
  | x :: xs => jwf x && jwfL xs

/-- All member values well-formed. -/
def jwfO : List (Str × Json) → Bool
  | [] => true
  | (_, v) :: ms => jwf v && jwfO ms

end

/-- The separator-plus-item suffix of a dumped array after its first item. -/
def dumpsItemsTail : List Json → Nat → Str
  | [], _ => []
  | y :: ys, ind => ',' :: '\n' :: (indentStr ind ++ (dumpsVal y ind ++ dumpsItemsTail ys ind))

/-- The separator-plus-member suffix of a dumped object after its first member. -/
def dumpsMembersTail : List (Str × Json) → Nat → Str
  | [], _ => []
  | (k, v) :: ms, ind =>
    ',' :: '\n' :: (indentStr ind ++
      ('"' :: (escapeString k ++ '"' :: ':' :: ' ' :: dumpsVal v ind) ++ dumpsMembersTail ms ind))

theorem dumpsItems_eq (x : Json) (xs : List Json) (ind : Nat) :
    dumpsItems x xs ind = dumpsVal x ind ++ dumpsItemsTail xs ind := by
  induction xs generalizing x with
  | nil => simp [dumpsItems, dumpsItemsTail]
  | cons y ys ih =>
    rw [dumpsItems, ih y, dumpsItemsTail]

theorem dumpsMembers_eq (k : Str) (v : Json) (ms : List (Str × Json)) (ind : Nat) :
    dumpsMembers (k, v) ms ind =
      ('"' :: (escapeString k ++ '"' :: ':' :: ' ' :: dumpsVal v ind)) ++
        dumpsMembersTail ms ind := by
  induction ms generalizing k v with
  | nil => simp [dumpsMembers, dumpsMembersTail]
  | cons m ms' ih =>
    obtain ⟨k', v'⟩ := m
    rw [dumpsMembers, ih k' v', dumpsMembersTail]

-- skipWs facts.

theorem skipWs_cons_of_not_ws {c : Char} (h : isJsonWs c = false) (s : Str) :
    skipWs (c :: s) = c :: s := by
  simp [skipWs, List.dropWhile_cons, h]

theorem skipWs_cons_of_ws {c : Char} (h : isJsonWs c = true) (s : Str) :
    skipWs (c :: s) = skipWs s := by
  simp [skipWs, List.dropWhile_cons, h]

theorem skipWs_indent (n : Nat) (s : Str) : skipWs (indentStr n ++ s) = skipWs s := by
  induction n with
  | zero => rfl
  | succ m ih =>
    show skipWs (List.replicate (m + 1) ' ' ++ s) = skipWs s
    rw [List.replicate_succ, List.cons_append, skipWs_cons_of_ws (by decide)]
    exact ih

theorem skipWs_nl (s : Str) : skipWs ('\n' :: s) = skipWs s := skipWs_cons_of_ws (by decide) s

/-- `parseVal` only looks at its input through `skipWs`. -/
theorem parseVal_congr_skipWs (fuel : Nat) {s1 s2 : Str} (h : skipWs s1 = skipWs s2) :
    parseVal fuel s1 = parseVal fuel s2 := by
  cases fuel with
  | zero => rfl
  | succ g => rw [parseVal, parseVal, h]

-- String escape round trip.

theorem hexVal_hexDigit {d : Nat} (h : d < 16) : hexVal (hexDigit d) = some d := by
  interval_cases d <;> rfl

theorem psb_quote (rest : Str) : parseStringBody ('"' :: rest) = some ([], rest) := by
  rw [parseStringBody.eq_def]
  simp

theorem psb_lit {c : Char} (s : Str) (h1 : ¬(c = '"')) (h2 : ¬(c = '\\'))
    (h3 : ¬(c.toNat < 32)) :
    parseStringBody (c :: s) = (parseStringBody s).map (fun r => (c :: r.1, r.2)) := by
  rw [parseStringBody.eq_def]
  simp [h1, h2, h3]

theorem psb_esc {e ch : Char} (s : Str) (he : escDecode e = some ch) (hu : ¬(e = 'u')) :
    parseStringBody ('\\' :: e :: s) = (parseStringBody s).map (fun r => (ch :: r.1, r.2)) := by
  rw [parseStringBody.eq_def]
  simp [he, hu]

theorem psb_unicode {h1 h2 h3 h4 : Char} {a b c2 d2 : Nat} (s : Str)
    (e1 : hexVal h1 = some a) (e2 : hexVal h2 = some b)
    (e3 : hexVal h3 = some c2) (e4 : hexVal h4 = some d2) :
    parseStringBody ('\\' :: 'u' :: h1 :: h2 :: h3 :: h4 :: s) =
      (parseStringBody s).map
        (fun r => (Char.ofNat (((a * 16 + b) * 16 + c2) * 16 + d2) :: r.1, r.2)) := by
  rw [parseStringBody.eq_def]
  simp [e1, e2, e3, e4]

theorem parseStringBody_escape (s rest : Str) :
    parseStringBody (escapeString s ++ '"' :: rest) = some (s, rest) := by
  induction s with
  | nil => exact psb_quote rest
  | cons c cs ih =>
    show parseStringBody ((escapeChar c ++ escapeString cs) ++ '"' :: rest) = some (c :: cs, rest)
    rw [List.append_assoc]
    by_cases hq : c = '"'
    · subst hq
      rw [show escapeChar '"' = ['\\', '"'] from rfl,
        List.cons_append, List.singleton_append, psb_esc _ (by rfl) (by decide), ih]
      rfl
    · by_cases hb : c = '\\'
      · subst hb
        rw [show escapeChar '\\' = ['\\', '\\'] from rfl,
          List.cons_append, List.singleton_append, psb_esc _ (by rfl) (by decide), ih]
        rfl
      · by_cases hn : c = '\n'
        · subst hn
          rw [show escapeChar '\n' = ['\\', 'n'] from rfl,
            List.cons_append, List.singleton_append, psb_esc _ (by rfl) (by decide), ih]
          rfl
        · by_cases hr : c = '\r'
          · subst hr
            rw [show escapeChar '\r' = ['\\', 'r'] from rfl,
              List.cons_append, List.singleton_append, psb_esc _ (by rfl) (by decide), ih]
            rfl
          · by_cases ht : c = '\t'
            · subst ht
              rw [show escapeChar '\t' = ['\\', 't'] from rfl,
                List.cons_append, List.singleton_append, psb_esc _ (by rfl) (by decide), ih]
              rfl
            · by_cases h8 : c.toNat = 8
              · have he : escapeChar c = ['\\', 'b'] := by
                  unfold escapeChar
                  rw [if_neg hq, if_neg hb, if_neg hn, if_neg hr, if_neg ht, if_pos h8]
                have hc : c = Char.ofNat 8 := by rw [← h8, Char.ofNat_toNat]
                rw [he, List.cons_append, List.singleton_append,
                  psb_esc _ (by rfl) (by decide), ih, ← hc]
                rfl
              · by_cases h12 : c.toNat = 12
                · have he : escapeChar c = ['\\', 'f'] := by
                    unfold escapeChar
                    rw [if_neg hq, if_neg hb, if_neg hn, if_neg hr, if_neg ht, if_neg h8,
                      if_pos h12]
                  have hc : c = Char.ofNat 12 := by rw [← h12, Char.ofNat_toNat]
                  rw [he, List.cons_append, List.singleton_append,
                    psb_esc _ (by rfl) (by decide), ih, ← hc]
                  rfl
                · by_cases h32 : c.toNat < 32
                  · have he : escapeChar c =
                        ['\\', 'u', '0', '0', hexDigit (c.toNat / 16),
                          hexDigit (c.toNat % 16)] := by
                      unfold escapeChar
                      rw [if_neg hq, if_neg hb, if_neg hn, if_neg hr, if_neg ht, if_neg h8,
                        if_neg h12, if_pos h32]
                    rw [he]
                    simp only [List.cons_append, List.singleton_append, List.nil_append]
                    rw [psb_unicode _ (show hexVal '0' = some 0 by decide)
                      (show hexVal '0' = some 0 by decide)
                      (hexVal_hexDigit (by omega)) (hexVal_hexDigit (by omega)), ih]
                    have harith : ((0 * 16 + 0) * 16 + c.toNat / 16) * 16 + c.toNat % 16
                        = c.toNat := by omega
                    rw [harith, Char.ofNat_toNat]
                    rfl
                  · have he : escapeChar c = [c] := by
                      unfold escapeChar
                      rw [if_neg hq, if_neg hb, if_neg hn, if_neg hr, if_neg ht, if_neg h8,
                        if_neg h12, if_neg h32]
                    rw [he, List.singleton_append, psb_lit _ hq hb h32, ih]
                    rfl

-- Number round trip.

/-- No digit at the head of `s` (so a number scan stops exactly there). -/
def digitFree (s : Str) : Prop := ∀ c, s.head? = some c → isDigitChar c = false

theorem digitFree_cons {c : Char} (h : isDigitChar c = false) (s : Str) :
    digitFree (c :: s) := by
  intro c' hc'
  injection hc' with hc'
  rw [← hc']
  exact h

theorem digitFree_nil : digitFree [] := by
  intro c hc
  simp at hc

theorem natToStr_head_ne_zero (n : Nat) (hn : 0 < n) :
    ∀ c t, natToStr n = c :: t → ¬(c = '0') := by
  induction n using Nat.strong_induction_on with
  | _ n ih =>
    intro c t hs hc
    subst hc
    rw [natToStr] at hs
    split at hs
    · next h =>
      injection hs with h1 _
      have : ('0' : Char).toNat = 48 + n := by rw [← h1]; exact digitChar_toNat h
      have h0 : ('0' : Char).toNat = 48 := rfl
      omega
    · next h =>
      have hd : n / 10 < n := Nat.div_lt_self (by omega) (by omega)
      have hd0 : 0 < n / 10 := by omega
      obtain ⟨c', t', hs'⟩ : ∃ c' t', natToStr (n / 10) = c' :: t' := by
        cases hx : natToStr (n / 10) with
        | nil => exact absurd hx (natToStr_ne_nil _)
        | cons a b => exact ⟨a, b, rfl⟩
      rw [hs', List.cons_append] at hs
      injection hs with h1 _
      exact ih _ hd hd0 c' t' hs' h1

theorem takeWhile_append_all {p : Char → Bool} :
    ∀ {a : Str} (b : Str), (∀ c ∈ a, p c = true) →
      (a ++ b).takeWhile p = a ++ b.takeWhile p := by
  intro a
  induction a with
  | nil => intro b _; rfl
  | cons x xs ih =>
    intro b h
    rw [List.cons_append, List.takeWhile_cons_of_pos (h x (List.mem_cons_self _ _)),
      ih b (fun c hc => h c (List.mem_cons_of_mem _ hc))]
    rfl

theorem dropWhile_append_all {p : Char → Bool} :
    ∀ {a : Str} (b : Str), (∀ c ∈ a, p c = true) →
      (a ++ b).dropWhile p = b.dropWhile p := by
  intro a
  induction a with
  | nil => intro b _; rfl
  | cons x xs ih =>
    intro b h
    rw [List.cons_append, List.dropWhile_cons_of_pos (h x (List.mem_cons_self _ _)),
      ih b (fun c hc => h c (List.mem_cons_of_mem _ hc))]

theorem takeWhile_digitFree {s : Str} (h : digitFree s) : s.takeWhile isDigitChar = [] := by
  cases s with
  | nil => rfl
  | cons c t => exact List.takeWhile_cons_of_neg (by simp [h c rfl])

theorem dropWhile_digitFree {s : Str} (h : digitFree s) : s.dropWhile isDigitChar = s := by
  cases s with
  | nil => rfl
  | cons c t => exact List.dropWhile_cons_of_neg (by simp [h c rfl])

theorem parseNumNat_natToStr (n : Nat) (rest : Str) (hrest : digitFree rest) :
    parseNumNat (natToStr n ++ rest) = some (n, rest) := by
  by_cases h0 : n = 0
  · subst h0
    rw [show natToStr 0 = ['0'] by rw [natToStr]; rfl, List.singleton_append, parseNumNat,
      if_pos rfl]
  · obtain ⟨c, t, hs⟩ : ∃ c t, natToStr n = c :: t := by
      cases hx : natToStr n with
      | nil => exact absurd hx (natToStr_ne_nil _)
      | cons a b => exact ⟨a, b, rfl⟩
    have hcz : ¬(c = '0') := natToStr_head_ne_zero n (by omega) c t hs
    have hcd : isDigitChar c = true := by
      have hall := natToStr_all_digits n
      rw [List.all_eq_true] at hall
      exact hall c (by rw [hs]; exact List.mem_cons_self _ _)
    have hdigits : ∀ ch ∈ natToStr n, isDigitChar ch = true := by
      have hall := natToStr_all_digits n
      rw [List.all_eq_true] at hall
      exact hall
    rw [hs, List.cons_append, parseNumNat, if_neg hcz, if_pos hcd, ← List.cons_append, ← hs,
      takeWhile_append_all rest hdigits, dropWhile_append_all rest hdigits,
      takeWhile_digitFree hrest, dropWhile_digitFree hrest, List.append_nil,
      digitsVal_natToStr n]

theorem parseNum_intToStr (i : Int) (rest : Str) (hrest : digitFree rest) :
    parseNum (intToStr i ++ rest) = some (i, rest) := by
  unfold intToStr
  by_cases hneg : i < 0
  · rw [if_pos hneg, List.cons_append, parseNum, parseNumNat_natToStr _ rest hrest]
    have h2 : -(((-i).toNat : Int)) = i := by omega
    show some (-(((-i).toNat : Int)), rest) = some (i, rest)
    rw [h2]
  · rw [if_neg hneg]
    obtain ⟨c, t, hs⟩ : ∃ c t, natToStr i.toNat = c :: t := by
      cases hx : natToStr i.toNat with
      | nil => exact absurd hx (natToStr_ne_nil _)
      | cons a b => exact ⟨a, b, rfl⟩
    have hcd : isDigitChar c = true := by
      have hall := natToStr_all_digits i.toNat
      rw [List.all_eq_true] at hall
      exact hall c (by rw [hs]; exact List.mem_cons_self _ _)
    rw [hs, List.cons_append, parseNum.eq_def]
    split
    · next r heq =>
      injection heq with hc _
      exact absurd hc (digitChar_is_not_minus hcd)
    · rw [← List.cons_append, ← hs, parseNumNat_natToStr _ rest hrest]
      have h2 : ((i.toNat : Nat) : Int) = i := by omega
      show some ((i.toNat : Int), rest) = some (i, rest)
      rw [h2]

-- Routing facts: which parser branch a dumped value's first character takes.

theorem take_append_len (a b : Str) (k : Nat) (h : a.length = k) : (a ++ b).take k = a := by
  subst h
  exact List.take_left a b

theorem drop_append_len (a b : Str) (k : Nat) (h : a.length = k) : (a ++ b).drop k = b := by
  subst h
  exact List.drop_left a b

theorem take_cons_ne {c c' : Char} (h : ¬(c = c')) (t l : Str) (k : Nat) :
    ¬((c :: t).take (k + 1) = c' :: l) := by
  intro heq
  rw [List.take_succ_cons] at heq
  injection heq with h1 _
  exact h h1

theorem numChar_props {c : Char} (h : isNumChar c = true) :
    ¬(c = 'n') ∧ ¬(c = 't') ∧ ¬(c = 'f') ∧ ¬(c = '"') ∧ ¬(c = '[') ∧ ¬(c = lbraceChar)
      ∧ ¬(c = ']') ∧ ¬(c = rbraceChar) ∧ ¬(c = ',') ∧ isJsonWs c = false := by
  refine ⟨?_, ?_, ?_, ?_, ?_, ?_, ?_, ?_, ?_, ?_⟩
  · intro hc; subst hc; exact absurd h (by decide)
  · intro hc; subst hc; exact absurd h (by decide)
  · intro hc; subst hc; exact absurd h (by decide)
  · intro hc; subst hc; exact absurd h (by decide)
  · intro hc; subst hc; exact absurd h (by decide)
  · intro hc; subst hc; exact absurd h (by decide)
  · intro hc; subst hc; exact absurd h (by decide)
  · intro hc; subst hc; exact absurd h (by decide)
  · intro hc; subst hc; exact absurd h (by decide)
  · cases hjw : isJsonWs c
    · rfl
    · exfalso
      simp [isJsonWs] at hjw
      rcases hjw with ((hc | hc) | hc) | hc <;> (subst hc; exact absurd h (by decide))

/-- The first character of a dumped value: never whitespace, a bracket
close, a brace close or a comma. -/
theorem dumpsVal_head_form (v : Json) (ind : Nat) :
    ∃ c t, dumpsVal v ind = c :: t ∧ isJsonWs c = false ∧ ¬(c = ']') ∧ ¬(c = rbraceChar)
      ∧ ¬(c = ',') := by
  cases v with
  | null =>
    exact ⟨'n', "ull".data, by rw [dumpsVal], by decide, by decide, by decide, by decide⟩
  | bool b =>
    cases b
    · exact ⟨'f', "alse".data, by rw [dumpsVal]; rfl, by decide, by decide, by decide, by decide⟩
    · exact ⟨'t', "rue".data, by rw [dumpsVal]; rfl, by decide, by decide, by decide, by decide⟩
  | num n =>
    obtain ⟨c, t, hs⟩ : ∃ c t, intToStr n = c :: t := by
      cases hx : intToStr n with
      | nil => exact absurd hx (intToStr_ne_nil _)
      | cons a b => exact ⟨a, b, rfl⟩
    have hnum : isNumChar c = true :=
      intToStr_all_num n c (by rw [hs]; exact List.mem_cons_self _ _)
    obtain ⟨_, _, _, _, _, _, h7, h8, h9, h10⟩ := numChar_props hnum
    exact ⟨c, t, by rw [dumpsVal]; exact hs, h10, h7, h8, h9⟩
  | str s =>
    exact ⟨'"', escapeString s ++ ['"'], by rw [dumpsVal], by decide, by decide, by decide,
      by decide⟩
  | arr xs =>
    cases xs with
    | nil => exact ⟨'[', [']'], by rw [dumpsVal], by decide, by decide, by decide, by decide⟩
    | cons x xs =>
      exact ⟨'[', '\n' :: (indentStr (ind + 2) ++ dumpsItems x xs (ind + 2)
          ++ '\n' :: (indentStr ind ++ [']'])),
        by rw [dumpsVal], by decide, by decide, by decide, by decide⟩
  | obj kvs =>
    cases kvs with
    | nil =>
      exact ⟨lbraceChar, [rbraceChar], by rw [dumpsVal], by decide, by decide, by decide,
        by decide⟩
    | cons m ms =>
      exact ⟨lbraceChar, '\n' :: (indentStr (ind + 2) ++ dumpsMembers m ms (ind + 2)
          ++ '\n' :: (indentStr ind ++ [rbraceChar])),
        by rw [dumpsVal], by decide, by decide, by decide, by decide⟩

-- Dictionary building with fresh keys appends in order.

theorem setEntry_fresh {α : Type} (l : List (Str × α)) (k : Str) (v : α)
    (h : lookupEntry l k = none) : setEntry l k v = l ++ [(k, v)] := by
  induction l with
  | nil => rfl
  | cons q rest ih =>
    unfold lookupEntry at h
    by_cases hk : q.1 = k
    · rw [if_pos hk] at h
      cases h
    · rw [if_neg hk] at h
      show setEntry (q :: rest) k v = q :: (rest ++ [(k, v)])
      cases q with
      | mk qk qv =>
        unfold setEntry
        rw [if_neg hk]
        rw [ih h]

theorem nodupKeys_cons {k : Str} {v : Json} {ms : List (Str × Json)}
    (h : nodupKeys ((k, v) :: ms) = true) :
    (∀ m ∈ ms, ¬(m.1 = k)) ∧ nodupKeys ms = true := by
  unfold nodupKeys at h
  rw [Bool.and_eq_true, Bool.not_eq_true'] at h
  refine ⟨?_, h.2⟩
  intro m hm hmk
  have := List.any_eq_false.mp h.1 m hm
  simp [hmk] at this

theorem skipWs_append_eq_self {a : Str} {c : Char} {t : Str} (ha : a = c :: t)
    (h : isJsonWs c = false) (b : Str) : skipWs (a ++ b) = a ++ b := by
  subst ha
  rw [List.cons_append, skipWs_cons_of_not_ws h]

theorem not_take_null {a : Str} {c : Char} {t : Str} (ha : a = c :: t) (h : ¬(c = 'n'))
    (b : Str) : ¬((a ++ b).take 4 = nullLit) := by
  subst ha
  rw [List.cons_append]
  intro heq
  rw [show (4 : Nat) = 3 + 1 from rfl, List.take_succ_cons] at heq
  rw [show nullLit = 'n' :: "ull".data from rfl] at heq
  injection heq with h1 _
  exact h h1

theorem not_take_true {a : Str} {c : Char} {t : Str} (ha : a = c :: t) (h : ¬(c = 't'))
    (b : Str) : ¬((a ++ b).take 4 = trueLit) := by
  subst ha
  rw [List.cons_append]
  intro heq
  rw [show (4 : Nat) = 3 + 1 from rfl, List.take_succ_cons] at heq
  rw [show trueLit = 't' :: "rue".data from rfl] at heq
  injection heq with h1 _
  exact h h1

theorem not_take_false {a : Str} {c : Char} {t : Str} (ha : a = c :: t) (h : ¬(c = 'f'))
    (b : Str) : ¬((a ++ b).take 5 = falseLit) := by
  subst ha
  rw [List.cons_append]
  intro heq
  rw [show (5 : Nat) = 4 + 1 from rfl, List.take_succ_cons] at heq
  rw [show falseLit = 'f' :: "alse".data from rfl] at heq
  injection heq with h1 _
  exact h h1

theorem lookup_singleton_ne {α : Type} {k q : Str} (v : α) (h : ¬(k = q)) :
    lookupEntry [(k, v)] q = none := by
  unfold lookupEntry
  rw [if_neg h]
  rfl

/-- Parsing a dumped value (with any trailing non-digit rest) recovers it. -/
theorem parse_dumps_all (fuel : Nat) :
    (∀ v ind rest, jsize v < fuel → jwf v = true → digitFree rest →
      parseVal fuel (dumpsVal v ind ++ rest) = some (v, rest))
    ∧ (∀ xs acc indI indC rest, jsizeL xs < fuel → jwfL xs = true →
      parseArrItems fuel
        (dumpsItemsTail xs indI ++ '\n' :: (indentStr indC ++ ']' :: rest)) acc
        = some (.arr (acc ++ xs), rest))
    ∧ (∀ ms acc indI indC rest, jsizeO ms < fuel → jwfO ms = true →
      nodupKeys ms = true → (∀ m ∈ ms, lookupEntry acc m.1 = none) →
      parseObjItems fuel
        (dumpsMembersTail ms indI ++ '\n' :: (indentStr indC ++ rbraceChar :: rest)) acc
        = some (.obj (acc ++ ms), rest)) := by
  induction fuel using Nat.strong_induction_on with
  | _ fuel IH =>
  obtain rfl | ⟨g, rfl⟩ : fuel = 0 ∨ ∃ g, fuel = g + 1 := by
    cases fuel
    · exact Or.inl rfl
    · exact Or.inr ⟨_, rfl⟩
  · refine ⟨?_, ?_, ?_⟩
    · intro v ind rest hsize _ _
      exact absurd hsize (Nat.not_lt_zero _)
    · intro xs acc indI indC rest hsize _
      exact absurd hsize (Nat.not_lt_zero _)
    · intro ms acc indI indC rest hsize _ _ _
      exact absurd hsize (Nat.not_lt_zero _)
  refine ⟨?_, ?_, ?_⟩
  · -- parseVal on a dumped value
    intro v ind rest hsize hwf hdf
    cases v with
    | null =>
      rw [show dumpsVal .null ind = nullLit by rw [dumpsVal]; rfl]
      rw [parseVal]
      rw [skipWs_append_eq_self (show nullLit = 'n' :: "ull".data from rfl) (by decide) rest]
      rw [if_pos (take_append_len nullLit rest 4 (by rfl)),
        drop_append_len nullLit rest 4 (by rfl)]
    | bool b =>
      cases b
      · rw [show dumpsVal (.bool false) ind = falseLit by rw [dumpsVal]; rfl]
        rw [parseVal]
        rw [skipWs_append_eq_self (show falseLit = 'f' :: "alse".data from rfl) (by decide) rest]
        rw [if_neg (not_take_null (show falseLit = 'f' :: "alse".data from rfl)
          (by decide) rest)]
        rw [if_neg (not_take_true (show falseLit = 'f' :: "alse".data from rfl)
          (by decide) rest)]
        rw [if_pos (take_append_len falseLit rest 5 (by rfl)),
          drop_append_len falseLit rest 5 (by rfl)]
      · rw [show dumpsVal (.bool true) ind = trueLit by rw [dumpsVal]; rfl]
        rw [parseVal]
        rw [skipWs_append_eq_self (show trueLit = 't' :: "rue".data from rfl) (by decide) rest]
        rw [if_neg (not_take_null (show trueLit = 't' :: "rue".data from rfl)
          (by decide) rest)]
        rw [if_pos (take_append_len trueLit rest 4 (by rfl)),
          drop_append_len trueLit rest 4 (by rfl)]
    | num n =>
      rw [show dumpsVal (.num n) ind = intToStr n by rw [dumpsVal]]
      obtain ⟨c, t, hs⟩ : ∃ c t, intToStr n = c :: t := by
        cases hx : intToStr n with
        | nil => exact absurd hx (intToStr_ne_nil _)
        | cons a b => exact ⟨a, b, rfl⟩
      have hnum : isNumChar c = true :=
        intToStr_all_num n c (by rw [hs]; exact List.mem_cons_self _ _)
      obtain ⟨h1, h2, h3, h4, h5, h6, _, _, _, h10⟩ := numChar_props hnum
      rw [parseVal]
      rw [skipWs_append_eq_self hs h10 rest]
      rw [if_neg (not_take_null hs h1 rest), if_neg (not_take_true hs h2 rest),
        if_neg (not_take_false hs h3 rest)]
      rw [hs, List.cons_append]
      simp only [h4, h5, h6, if_false]
      rw [← List.cons_append, ← hs, parseNum_intToStr n rest hdf]
      rfl
    | str s =>
      rw [show dumpsVal (.str s) ind = '"' :: (escapeString s ++ ['"']) by rw [dumpsVal]]
      rw [parseVal]
      rw [skipWs_append_eq_self rfl (by decide) rest]
      rw [if_neg (not_take_null rfl (by decide) rest),
        if_neg (not_take_true rfl (by decide) rest),
        if_neg (not_take_false rfl (by decide) rest)]
      rw [List.cons_append]
      simp only [if_pos rfl]
      rw [List.append_assoc, List.singleton_append, parseStringBody_escape]
      rfl
    | arr xs =>
      cases xs with
      | nil =>
        rw [show dumpsVal (.arr []) ind = '[' :: [']'] by rw [dumpsVal]]
        rw [parseVal]
        rw [skipWs_append_eq_self rfl (by decide) rest]
        rw [if_neg (not_take_null rfl (by decide) rest),
          if_neg (not_take_true rfl (by decide) rest),
          if_neg (not_take_false rfl (by decide) rest)]
        rw [List.cons_append]
        simp only [if_neg (show ¬('[' = '"') by decide), if_pos rfl]
        rw [List.singleton_append, skipWs_cons_of_not_ws (by decide)]
        obtain ⟨g', rfl⟩ : ∃ g', g = g' + 1 := by
          refine ⟨g - 1, ?_⟩
          have h2 : jsize (Json.arr []) = 2 := by simp [jsize, jsizeL]
          omega
        rw [parseArrBody.eq_def]
        simp
      | cons x xs' =>
        rw [show dumpsVal (.arr (x :: xs')) ind = '[' :: '
' :: (indentStr (ind + 2)
            ++ dumpsItems x xs' (ind + 2) ++ '
' :: (indentStr ind ++ [']']))
          by rw [dumpsVal]]
        rw [parseVal]
        rw [skipWs_append_eq_self rfl (by decide) rest]
        rw [if_neg (not_take_null rfl (by decide) rest),
          if_neg (not_take_true rfl (by decide) rest),
          if_neg (not_take_false rfl (by decide) rest)]
        rw [List.cons_append]
        simp only [if_neg (show ¬('[' = '"') by decide), if_pos rfl]
        rw [List.cons_append, skipWs_nl]
        simp only [List.append_assoc, List.cons_append, List.singleton_append, List.nil_append]
        rw [skipWs_indent, dumpsItems_eq, List.append_assoc]
        obtain ⟨cx, tx, hx, hxws, hxne, _, _⟩ := dumpsVal_head_form x (ind + 2)
        rw [skipWs_append_eq_self hx hxws _]
        have hbound : 3 + jsize x + jsizeL xs' < g + 1 := by
          have h2 : jsize (Json.arr (x :: xs')) = 2 + (1 + jsize x + jsizeL xs') := by
            simp [jsize, jsizeL]
          omega
        obtain ⟨g', rfl⟩ : ∃ g', g = g' + 1 := ⟨g - 1, by omega⟩
        rw [hx, List.cons_append, parseArrBody.eq_def]
        simp only [hxne, if_false, if_true]
        rw [← List.cons_append, ← hx]
        have hwf2 : jwf x = true ∧ jwfL xs' = true := by
          have := hwf
          simp [jwf, jwfL] at this
          exact this
        have hdfx : digitFree (dumpsItemsTail xs' (ind + 2)
            ++ ('
' :: (indentStr ind ++ (']' :: rest)))) := by
          cases xs' with
          | nil =>
            rw [show dumpsItemsTail [] (ind + 2) = [] by rw [dumpsItemsTail], List.nil_append]
            exact digitFree_cons (by decide) _
          | cons y ys =>
            rw [dumpsItemsTail, List.cons_append]
            exact digitFree_cons (by decide) _
        rw [(IH g' (by omega)).1 x (ind + 2) _ (by omega) hwf2.1 hdfx]
        show parseArrItems g' (dumpsItemsTail xs' (ind + 2)
            ++ '\n' :: (indentStr ind ++ ']' :: rest)) [x] = some (Json.arr (x :: xs'), rest)
        rw [(IH g' (by omega)).2.1 xs' [x] (ind + 2) ind rest (by omega) hwf2.2]
        rw [List.singleton_append]
    | obj kvs =>
      cases kvs with
      | nil =>
        rw [show dumpsVal (.obj []) ind = lbraceChar :: [rbraceChar] by rw [dumpsVal]]
        rw [parseVal]
        rw [skipWs_append_eq_self rfl (by decide) rest]
        rw [if_neg (not_take_null rfl (by decide) rest),
          if_neg (not_take_true rfl (by decide) rest),
          if_neg (not_take_false rfl (by decide) rest)]
        rw [List.cons_append]
        simp only [if_neg (show ¬(lbraceChar = '"') by decide),
          if_neg (show ¬(lbraceChar = '[') by decide), if_pos rfl]
        rw [List.singleton_append, skipWs_cons_of_not_ws (by decide)]
        obtain ⟨g', rfl⟩ : ∃ g', g = g' + 1 := by
          refine ⟨g - 1, ?_⟩
          have h2 : jsize (Json.obj []) = 2 := by simp [jsize, jsizeO]
          omega
        rw [parseObjBody.eq_def]
        simp
      | cons m ms =>
        obtain ⟨k, v⟩ := m
        rw [show dumpsVal (.obj ((k, v) :: ms)) ind = lbraceChar :: '
' :: (indentStr (ind + 2)
            ++ dumpsMembers (k, v) ms (ind + 2) ++ '
' :: (indentStr ind ++ [rbraceChar]))
          by rw [dumpsVal]]
        rw [parseVal]
        rw [skipWs_append_eq_self rfl (by decide) rest]
        rw [if_neg (not_take_null rfl (by decide) rest),
          if_neg (not_take_true rfl (by decide) rest),
          if_neg (not_take_false rfl (by decide) rest)]
        rw [List.cons_append]
        simp only [if_neg (show ¬(lbraceChar = '"') by decide),
          if_neg (show ¬(lbraceChar = '[') by decide), if_pos rfl]
        rw [List.cons_append, skipWs_nl, dumpsMembers_eq]
        simp only [List.append_assoc, List.cons_append, List.singleton_append, List.nil_append]
        rw [skipWs_indent, skipWs_cons_of_not_ws (by decide)]
        have hbound : 3 + jsize v + jsizeO ms < g + 1 := by
          have h2 : jsize (Json.obj ((k, v) :: ms)) = 2 + (1 + jsize v + jsizeO ms) := by
            simp [jsize, jsizeO]
          omega
        obtain ⟨g', rfl⟩ : ∃ g', g = g' + 1 := ⟨g - 1, by omega⟩
        rw [parseObjBody.eq_def]
        simp only [if_neg (show ¬('"' = rbraceChar) by decide), if_pos rfl, if_true, if_false]
        rw [parseStringBody_escape]
        dsimp only
        rw [skipWs_cons_of_not_ws (by decide)]
        simp only [if_pos rfl, if_true]
        rw [parseVal_congr_skipWs g' (skipWs_cons_of_ws (by decide) _)]
        have hwf2 : (nodupKeys ((k, v) :: ms) = true ∧ jwf v = true) ∧ jwfO ms = true := by
          have := hwf
          simp [jwf, jwfO] at this
          exact ⟨⟨this.1, this.2.1⟩, this.2.2⟩
        have hnd := nodupKeys_cons hwf2.1.1
        have hdfv : digitFree (dumpsMembersTail ms (ind + 2)
            ++ ('
' :: (indentStr ind ++ (rbraceChar :: rest)))) := by
          cases ms with
          | nil =>
            rw [show dumpsMembersTail [] (ind + 2) = [] by rw [dumpsMembersTail],
              List.nil_append]
            exact digitFree_cons (by decide) _
          | cons m' ms' =>
            obtain ⟨k', v'⟩ := m'
            rw [dumpsMembersTail, List.cons_append]
            exact digitFree_cons (by decide) _
        rw [(IH g' (by omega)).1 v (ind + 2) _ (by omega) hwf2.1.2 hdfv]
        show parseObjItems g' (dumpsMembersTail ms (ind + 2)
            ++ '
' :: (indentStr ind ++ rbraceChar :: rest)) (setEntry [] k v)
          = some (Json.obj ((k, v) :: ms), rest)
        rw [show setEntry ([] : List (Str × Json)) k v = [(k, v)] from rfl]
        have hfresh : ∀ m ∈ ms, lookupEntry [(k, v)] m.1 = none := by
          intro m hm
          exact lookup_singleton_ne v (fun he => hnd.1 m hm he.symm)
        rw [(IH g' (by omega)).2.2 ms [(k, v)] (ind + 2) ind rest (by omega) hwf2.2
          hnd.2 hfresh]
        rw [List.singleton_append]
  · -- parseArrItems loop
    intro xs acc indI indC rest hsize hwfl
    cases xs with
    | nil =>
      rw [show dumpsItemsTail [] indI = [] by rw [dumpsItemsTail], List.nil_append]
      rw [parseArrItems.eq_def]
      dsimp only
      rw [skipWs_nl, skipWs_indent, skipWs_cons_of_not_ws (by decide)]
      simp only [if_neg (show ¬(']' = ',') by decide), if_pos rfl, if_false, if_true]
      rw [List.append_nil]
    | cons y ys =>
      have hsz : 1 + jsize y + jsizeL ys < g + 1 := by
        have h2 : jsizeL (y :: ys) = 1 + jsize y + jsizeL ys := by simp [jsizeL]
        omega
      have hwf2 : jwf y = true ∧ jwfL ys = true := by
        have := hwfl
        simp [jwfL] at this
        exact this
      rw [dumpsItemsTail, List.cons_append, List.cons_append]
      rw [parseArrItems.eq_def]
      dsimp only
      rw [skipWs_cons_of_not_ws (by decide)]
      simp only [if_pos rfl, if_true]
      simp only [List.append_assoc, List.cons_append, List.nil_append]
      rw [parseVal_congr_skipWs g (show skipWs ('
' :: (indentStr indI ++ (dumpsVal y indI
          ++ (dumpsItemsTail ys indI ++ '
' :: (indentStr indC ++ ']' :: rest)))))
        = skipWs (dumpsVal y indI ++ (dumpsItemsTail ys indI
          ++ '
' :: (indentStr indC ++ ']' :: rest))) by rw [skipWs_nl, skipWs_indent])]
      have hdfy : digitFree (dumpsItemsTail ys indI
          ++ '
' :: (indentStr indC ++ ']' :: rest)) := by
        cases ys with
        | nil =>
          rw [show dumpsItemsTail [] indI = [] by rw [dumpsItemsTail], List.nil_append]
          exact digitFree_cons (by decide) _
        | cons z zs =>
          rw [dumpsItemsTail, List.cons_append]
          exact digitFree_cons (by decide) _
      rw [(IH g (by omega)).1 y indI _ (by omega) hwf2.1 hdfy]
      show parseArrItems g (dumpsItemsTail ys indI
          ++ '
' :: (indentStr indC ++ ']' :: rest)) (acc ++ [y])
        = some (Json.arr (acc ++ y :: ys), rest)
      rw [(IH g (by omega)).2.1 ys (acc ++ [y]) indI indC rest (by omega) hwf2.2]
      rw [List.append_assoc, List.singleton_append]
  · -- parseObjItems loop
    intro ms acc indI indC rest hsize hwfo hnodup hfresh
    cases ms with
    | nil =>
      rw [show dumpsMembersTail [] indI = [] by rw [dumpsMembersTail], List.nil_append]
      rw [parseObjItems.eq_def]
      dsimp only
      rw [skipWs_nl, skipWs_indent, skipWs_cons_of_not_ws (by decide)]
      simp only [if_neg (show ¬(rbraceChar = ',') by decide), if_pos rfl, if_false, if_true]
      rw [List.append_nil]
    | cons m ms' =>
      obtain ⟨k, v⟩ := m
      have hsz : 1 + jsize v + jsizeO ms' < g + 1 := by
        have h2 : jsizeO ((k, v) :: ms') = 1 + jsize v + jsizeO ms' := by simp [jsizeO]
        omega
      have hwf2 : jwf v = true ∧ jwfO ms' = true := by
        have := hwfo
        simp [jwfO] at this
        exact this
      have hnd := nodupKeys_cons hnodup
      rw [dumpsMembersTail, List.cons_append, List.cons_append]
      rw [parseObjItems.eq_def]
      dsimp only
      rw [skipWs_cons_of_not_ws (by decide)]
      simp only [if_pos rfl, if_true]
      simp only [List.append_assoc, List.cons_append, List.nil_append]
      rw [skipWs_nl, skipWs_indent, skipWs_cons_of_not_ws (by decide)]
      simp only [if_neg (show ¬('"' = rbraceChar) by decide), if_pos rfl, if_false, if_true]
      rw [parseStringBody_escape]
      dsimp only
      rw [skipWs_cons_of_not_ws (by decide)]
      simp only [if_pos rfl, if_true]
      rw [parseVal_congr_skipWs g (skipWs_cons_of_ws (by decide) _)]
      have hdfv : digitFree (dumpsMembersTail ms' indI
          ++ '
' :: (indentStr indC ++ rbraceChar :: rest)) := by
        cases ms' with
        | nil =>
          rw [show dumpsMembersTail [] indI = [] by rw [dumpsMembersTail], List.nil_append]
          exact digitFree_cons (by decide) _
        | cons m2 ms2 =>
          obtain ⟨k2, v2⟩ := m2
          rw [dumpsMembersTail, List.cons_append]
          exact digitFree_cons (by decide) _
      rw [(IH g (by omega)).1 v indI _ (by omega) hwf2.1 hdfv]
      show parseObjItems g (dumpsMembersTail ms' indI
          ++ '
' :: (indentStr indC ++ rbraceChar :: rest)) (setEntry acc k v)
        = some (Json.obj (acc ++ (k, v) :: ms'), rest)
      have hkfresh : lookupEntry acc k = none := hfresh (k, v) (List.mem_cons_self _ _)
      have hfresh2 : ∀ m ∈ ms', lookupEntry (setEntry acc k v) m.1 = none := by
        intro m hm
        rw [lookupEntry_setEntry_other acc k m.1 v (hnd.1 m hm)]
        exact hfresh m (List.mem_cons_of_mem _ hm)
      rw [(IH g (by omega)).2.2 ms' (setEntry acc k v) indI indC rest (by omega) hwf2.2
        hnd.2 hfresh2]
      rw [setEntry_fresh acc k v hkfresh, List.append_assoc, List.singleton_append]

/-- The fuel bound `jsize` never exceeds the dumped length. -/
theorem dumps_len_all (N : Nat) :
    (∀ v ind, jsize v < N → jsize v ≤ (dumpsVal v ind).length)
    ∧ (∀ xs ind, jsizeL xs < N → jsizeL xs ≤ (dumpsItemsTail xs ind).length)
    ∧ (∀ ms ind, jsizeO ms < N → jsizeO ms ≤ (dumpsMembersTail ms ind).length) := by
  induction N using Nat.strong_induction_on with
  | _ N IH =>
  obtain rfl | ⟨g, rfl⟩ : N = 0 ∨ ∃ g, N = g + 1 := by
    cases N
    · exact Or.inl rfl
    · exact Or.inr ⟨_, rfl⟩
  · refine ⟨?_, ?_, ?_⟩ <;> (intro a b h; exact absurd h (Nat.not_lt_zero _))
  refine ⟨?_, ?_, ?_⟩
  · intro v ind hv
    cases v with
    | null => simp [jsize, dumpsVal]
    | bool b => cases b <;> simp [jsize, dumpsVal]
    | num n =>
      have h1 : jsize (Json.num n) = 1 := by simp [jsize]
      have h2 : 1 ≤ (intToStr n).length := by
        cases hx : intToStr n with
        | nil => exact absurd hx (intToStr_ne_nil n)
        | cons a b => simp
      rw [h1, show dumpsVal (Json.num n) ind = intToStr n by rw [dumpsVal]]
      exact h2
    | str s => simp [jsize, dumpsVal]
    | arr xs =>
      cases xs with
      | nil => simp [jsize, jsizeL, dumpsVal]
      | cons x xs' =>
        have hsz : jsize (Json.arr (x :: xs')) = 3 + jsize x + jsizeL xs' := by
          simp [jsize, jsizeL]
          omega
        have hx : jsize x ≤ (dumpsVal x (ind + 2)).length :=
          (IH g (by omega)).1 x (ind + 2) (by omega)
        have hxs : jsizeL xs' ≤ (dumpsItemsTail xs' (ind + 2)).length :=
          (IH g (by omega)).2.1 xs' (ind + 2) (by omega)
        rw [show dumpsVal (Json.arr (x :: xs')) ind = '[' :: '\n' :: (indentStr (ind + 2)
            ++ dumpsItems x xs' (ind + 2) ++ '\n' :: (indentStr ind ++ [']']))
          by rw [dumpsVal], dumpsItems_eq]
        simp [List.length_append]
        omega
    | obj kvs =>
      cases kvs with
      | nil => simp [jsize, jsizeO, dumpsVal]
      | cons m ms =>
        obtain ⟨k, v⟩ := m
        have hsz : jsize (Json.obj ((k, v) :: ms)) = 3 + jsize v + jsizeO ms := by
          simp [jsize, jsizeO]
          omega
        have hv : jsize v ≤ (dumpsVal v (ind + 2)).length :=
          (IH g (by omega)).1 v (ind + 2) (by omega)
        have hms : jsizeO ms ≤ (dumpsMembersTail ms (ind + 2)).length :=
          (IH g (by omega)).2.2 ms (ind + 2) (by omega)
        rw [show dumpsVal (Json.obj ((k, v) :: ms)) ind = lbraceChar :: '\n'
            :: (indentStr (ind + 2) ++ dumpsMembers (k, v) ms (ind + 2)
              ++ '\n' :: (indentStr ind ++ [rbraceChar]))
          by rw [dumpsVal], dumpsMembers_eq]
        simp [List.length_append]
        omega
  · intro xs ind hxs
    cases xs with
    | nil => simp [jsizeL, dumpsItemsTail]
    | cons y ys =>
      have hy : jsize y ≤ (dumpsVal y ind).length := (IH g (by
        have : jsizeL (y :: ys) = 1 + jsize y + jsizeL ys := by simp [jsizeL]
        omega)).1 y ind (by
        have : jsizeL (y :: ys) = 1 + jsize y + jsizeL ys := by simp [jsizeL]
        omega)
      have hys : jsizeL ys ≤ (dumpsItemsTail ys ind).length := (IH g (by
        have : jsizeL (y :: ys) = 1 + jsize y + jsizeL ys := by simp [jsizeL]
        omega)).2.1 ys ind (by
        have : jsizeL (y :: ys) = 1 + jsize y + jsizeL ys := by simp [jsizeL]
        omega)
      have hsz : jsizeL (y :: ys) = 1 + jsize y + jsizeL ys := by simp [jsizeL]
      rw [hsz, dumpsItemsTail]
      simp [List.length_append]
      omega
  · intro ms ind hms
    cases ms with
    | nil => simp [jsizeO, dumpsMembersTail]
    | cons m ms' =>
      obtain ⟨k, v⟩ := m
      have hb : jsizeO ((k, v) :: ms') = 1 + jsize v + jsizeO ms' := by simp [jsizeO]
      have hv : jsize v ≤ (dumpsVal v ind).length :=
        (IH g (by omega)).1 v ind (by omega)
      have hms' : jsizeO ms' ≤ (dumpsMembersTail ms' ind).length :=
        (IH g (by omega)).2.2 ms' ind (by omega)
      rw [hb, dumpsMembersTail]
      simp [List.length_append]
      omega

/-- `json.loads(json.dumps(v, indent=2)) == v` for dict-representable values. -/
theorem json_loads_json_dumps (v : Json) (h : jwf v = true) :
    json_loads (json_dumps v) = some v := by
  unfold json_loads json_dumps
  have hlen : jsize v ≤ (dumpsVal v 0).length :=
    (dumps_len_all (jsize v + 1)).1 v 0 (by omega)
  have hp := (parse_dumps_all ((dumpsVal v 0).length + 1)).1 v 0 [] (by omega) h digitFree_nil
  rw [List.append_nil] at hp
  rw [hp]
  dsimp only
  rw [if_pos (show skipWs ([] : Str) = [] from rfl)]

-- Parser results are dict-representable (object keys never repeat).

theorem jwfL_append_singleton {acc : List Json} {x : Json} (ha : jwfL acc = true)
    (hx : jwf x = true) : jwfL (acc ++ [x]) = true := by
  induction acc with
  | nil => simp [jwfL, hx]
  | cons a as ih =>
    rw [jwfL, Bool.and_eq_true] at ha
    rw [List.cons_append, jwfL, Bool.and_eq_true]
    exact ⟨ha.1, ih ha.2⟩

theorem setEntry_any_key {l : List (Str × Json)} {k q : Str} {v : Json}
    (h : (setEntry l k v).any (fun m => m.1 = q) = true) :
    l.any (fun m => m.1 = q) = true ∨ q = k := by
  rw [List.any_eq_true] at h
  obtain ⟨m, hm, hq⟩ := h
  rcases mem_setEntry hm with h1 | h1
  · subst h1
    simp at hq
    exact Or.inr hq.symm
  · exact Or.inl (List.any_eq_true.mpr ⟨m, h1, hq⟩)

theorem nodupKeys_setEntry {acc : List (Str × Json)} (k : Str) (v : Json)
    (h : nodupKeys acc = true) : nodupKeys (setEntry acc k v) = true := by
  induction acc with
  | nil => simp [setEntry, nodupKeys]
  | cons m rest ih =>
    obtain ⟨k', v'⟩ := m
    rw [nodupKeys, Bool.and_eq_true, Bool.not_eq_true'] at h
    by_cases hk : k' = k
    · subst hk
      show nodupKeys (if k' = k' then (k', v) :: rest else (k', v') :: setEntry rest k' v) = true
      rw [if_pos rfl, nodupKeys, Bool.and_eq_true, Bool.not_eq_true']
      exact ⟨h.1, h.2⟩
    · show nodupKeys (if k' = k then (k, v) :: rest else (k', v') :: setEntry rest k v) = true
      rw [if_neg hk, nodupKeys, Bool.and_eq_true, Bool.not_eq_true']
      refine ⟨?_, ih h.2⟩
      cases hany : (setEntry rest k v).any (fun m => m.1 = k') with
      | false => rfl
      | true =>
        rcases setEntry_any_key hany with h1 | h1
        · rw [h1] at h
          cases h.1
        · exact absurd h1 hk

theorem jwfO_setEntry {acc : List (Str × Json)} {k : Str} {v : Json}
    (ha : jwfO acc = true) (hv : jwf v = true) : jwfO (setEntry acc k v) = true := by
  induction acc with
  | nil => simp [setEntry, jwfO, hv]
  | cons m rest ih =>
    obtain ⟨k', v'⟩ := m
    rw [jwfO, Bool.and_eq_true] at ha
    by_cases hk : k' = k
    · show jwfO (if k' = k then (k, v) :: rest else (k', v') :: setEntry rest k v) = true
      rw [if_pos hk, jwfO, Bool.and_eq_true]
      exact ⟨hv, ha.2⟩
    · show jwfO (if k' = k then (k, v) :: rest else (k', v') :: setEntry rest k v) = true
      rw [if_neg hk, jwfO, Bool.and_eq_true]
      exact ⟨ha.1, ih ha.2⟩

theorem parse_wf_all (fuel : Nat) :
    (∀ s v r, parseVal fuel s = some (v, r) → jwf v = true)
    ∧ (∀ s v r, parseArrBody fuel s = some (v, r) → jwf v = true)
    ∧ (∀ s acc v r, parseArrItems fuel s acc = some (v, r) → jwfL acc = true → jwf v = true)
    ∧ (∀ s v r, parseObjBody fuel s = some (v, r) → jwf v = true)
    ∧ (∀ s acc v r, parseObjItems fuel s acc = some (v, r) →
        nodupKeys acc = true → jwfO acc = true → jwf v = true) := by
  induction fuel using Nat.strong_induction_on with
  | _ fuel IH =>
  obtain rfl | ⟨g, rfl⟩ : fuel = 0 ∨ ∃ g, fuel = g + 1 := by
    cases fuel
    · exact Or.inl rfl
    · exact Or.inr ⟨_, rfl⟩
  · refine ⟨?_, ?_, ?_, ?_, ?_⟩
    · intro s v r h
      rw [parseVal] at h
      cases h
    · intro s v r h
      rw [parseArrBody] at h
      cases h
    · intro s acc v r h
      rw [parseArrItems] at h
      cases h
    · intro s v r h
      rw [parseObjBody] at h
      cases h
    · intro s acc v r h
      rw [parseObjItems] at h
      cases h
  refine ⟨?_, ?_, ?_, ?_, ?_⟩
  · intro s v r h
    rw [parseVal] at h
    split at h
    · injection h with h1
      injection h1 with h2 _
      rw [← h2, jwf]
    · split at h
      · injection h with h1
        injection h1 with h2 _
        rw [← h2, jwf]
      · split at h
        · injection h with h1
          injection h1 with h2 _
          rw [← h2, jwf]
        · split at h
          · cases h
          · next c rest heq =>
            split at h
            · cases hps : parseStringBody rest with
              | none => rw [hps] at h; cases h
              | some p =>
                rw [hps, Option.map_some'] at h
                injection h with h1
                injection h1 with h2 _
                rw [← h2, jwf]
            · split at h
              · exact (IH g (by omega)).2.1 _ v r h
              · split at h
                · exact (IH g (by omega)).2.2.2.1 _ v r h
                · cases hpn : parseNum (c :: rest) with
                  | none => rw [hpn] at h; cases h
                  | some p =>
                    rw [hpn] at h
                    injection h with h1
                    injection h1 with h2 _
                    rw [← h2, jwf]
  · intro s v r h
    rw [parseArrBody.eq_def] at h
    dsimp only at h
    split at h
    · cases h
    · next c rest =>
      split at h
      · injection h with h1
        injection h1 with h2 _
        rw [← h2]
        rw [jwf, jwfL]
      · cases hpv : parseVal g (c :: rest) with
        | none => rw [hpv] at h; cases h
        | some p =>
          obtain ⟨v1, r1⟩ := p
          rw [hpv] at h
          dsimp only at h
          have hv1 : jwf v1 = true := (IH g (by omega)).1 _ v1 r1 hpv
          exact (IH g (by omega)).2.2.1 r1 [v1] v r h (by rw [jwfL, jwfL]; simp [hv1])
  · intro s acc v r h hacc
    rw [parseArrItems] at h
    split at h
    · cases h
    · next c rest heq =>
      split at h
      · cases hpv : parseVal g rest with
        | none => rw [hpv] at h; cases h
        | some p =>
          obtain ⟨v1, r1⟩ := p
          rw [hpv] at h
          dsimp only at h
          have hv1 : jwf v1 = true := (IH g (by omega)).1 _ v1 r1 hpv
          exact (IH g (by omega)).2.2.1 r1 (acc ++ [v1]) v r h (jwfL_append_singleton hacc hv1)
      · split at h
        · injection h with h1
          injection h1 with h2 _
          rw [← h2, jwf]
          exact hacc
        · cases h
  · intro s v r h
    rw [parseObjBody.eq_def] at h
    dsimp only at h
    split at h
    · cases h
    · next c rest =>
      split at h
      · injection h with h1
        injection h1 with h2 _
        rw [← h2]
        rw [jwf, nodupKeys, jwfO]
        rfl
      · split at h
        · cases hps : parseStringBody rest with
          | none => rw [hps] at h; cases h
          | some p =>
            obtain ⟨k, r1⟩ := p
            rw [hps] at h
            dsimp only at h
            split at h
            · cases h
            · next c2 r2 heq2 =>
              split at h
              · cases hpv : parseVal g r2 with
                | none => rw [hpv] at h; cases h
                | some q =>
                  obtain ⟨v1, r3⟩ := q
                  rw [hpv] at h
                  dsimp only at h
                  have hv1 : jwf v1 = true := (IH g (by omega)).1 _ v1 r3 hpv
                  exact (IH g (by omega)).2.2.2.2 r3 (setEntry [] k v1) v r h
                    (nodupKeys_setEntry k v1 rfl) (jwfO_setEntry rfl hv1)
              · cases h
        · cases h
  · intro s acc v r h hnodup hwfo
    rw [parseObjItems] at h
    split at h
    · cases h
    · next c rest heq =>
      split at h
      · split at h
        · cases h
        · next c1 r0 heq1 =>
          split at h
          · cases hps : parseStringBody r0 with
            | none => rw [hps] at h; cases h
            | some p =>
              obtain ⟨k, r1⟩ := p
              rw [hps] at h
              dsimp only at h
              split at h
              · cases h
              · next c2 r2 heq2 =>
                split at h
                · cases hpv : parseVal g r2 with
                  | none => rw [hpv] at h; cases h
                  | some q =>
                    obtain ⟨v1, r3⟩ := q
                    rw [hpv] at h
                    dsimp only at h
                    have hv1 : jwf v1 = true := (IH g (by omega)).1 _ v1 r3 hpv
                    exact (IH g (by omega)).2.2.2.2 r3 (setEntry acc k v1) v r h
                      (nodupKeys_setEntry k v1 hnodup) (jwfO_setEntry hwfo hv1)
                · cases h
          · cases h
      · split at h
        · injection h with h1
          injection h1 with h2 _
          rw [← h2, jwf, Bool.and_eq_true]
          exact ⟨hnodup, hwfo⟩
        · cases h

/-- Every parsed value is dict-representable. -/
theorem json_loads_wf {s : Str} {v : Json} (h : json_loads s = some v) : jwf v = true := by
  unfold json_loads at h
  cases hp : parseVal (s.length + 1) s with
  | none => rw [hp] at h; cases h
  | some p =>
    obtain ⟨v1, r⟩ := p
    rw [hp] at h
    dsimp only at h
    split at h
    · injection h with h1
      rw [← h1]
      exact (parse_wf_all (s.length + 1)).1 s v1 r hp
    · cases h

/-! ## MF_SaveData / MF_ReadData (src/nodes/data.py)

The filesystem is an association list from file paths to contents.  An
`Option Str` fault argument models an OS-level exception (text of `str(e)`)
raised inside the `try` blocks; `none` means the I/O calls succeed. -/

/-- The filesystem: file path to file contents. -/
abbrev FS := List (Str × Str)

/-- `os.path.join` (POSIX). -/
def pyJoin (a b : Str) : Str :=
  if b.head? = some '/' then b
  else if a = [] then b
  else if a.getLast? = some '/' then a ++ b
  else a ++ '/' :: b

/-- The backquote character. -/
def backquoteChar : Char := Char.ofNat 96

/-- Python `s.startswith("```")`. -/
def startsWithFence (s : Str) : Bool :=
  match s with
  | a :: b :: c :: _ => a = backquoteChar && b = backquoteChar && c = backquoteChar
  | _ => false

/-- The three-backquote fence string. -/
def fenceStr : Str := [backquoteChar, backquoteChar, backquoteChar]

/-- `MF_SaveData._clean_markdown_fences`: strip, drop an opening fence line
and a closing fence line, rejoin with newlines. -/
def clean_markdown_fences (data : Str) : Str :=
  let d := pyStrip data
  if startsWithFence d then
    let lines := splitOnChar '\n' d
    let lines1 := if startsWithFence (lines.headD []) then lines.tail else lines
    let lines2 :=
      if lines1 ≠ [] ∧ pyStrip (lines1.getLastD []) = fenceStr then lines1.dropLast else lines1
    joinSep '\n' lines2
  else d

/-- `os.path.splitext`'s extension, by scanning the reversed path: collect
characters until the last dot; a slash first, or only dots before the dot
inside the basename, means no extension. -/
def extSearch : Str → Str → Str
  | [], _ => []
  | c :: rest, acc =>
    if c = '/' then []
    else if c = '.' then
      if (rest.takeWhile (fun x => decide ¬(x = '/'))).any (fun x => decide ¬(x = '.')) then
        '.' :: acc
      else []
    else extSearch rest (c :: acc)

/-- The extension (with leading dot) of a path, as `os.path.splitext` finds it. -/
def extOf (p : Str) : Str := extSearch p.reverse []

/-- Python `str.lower()` (ASCII). -/
def pyLower (s : Str) : Str :=
  s.map (fun c => if 65 ≤ c.toNat ∧ c.toNat ≤ 90 then Char.ofNat (c.toNat + 32) else c)

/-- `ext.lower().lstrip(".")` as `read_data` computes it from the filename. -/
def readExt (filename : Str) : Str :=
  (pyLower (extOf filename)).dropWhile (fun c => c = '.')

/-- The save formats of `MF_SaveData`. -/
inductive SaveFormat where
  | json : SaveFormat
  | xml : SaveFormat
  | csv : SaveFormat
  | yaml : SaveFormat
deriving DecidableEq

/-- The format's file suffix. -/
def formatStr : SaveFormat → Str
  | .json => "json".data
  | .xml => "xml".data
  | .csv => "csv".data
  | .yaml => "yaml".data

/-- `MF_SaveData._save_json`: dump the parse when the data is valid JSON,
else write the raw string. -/
def save_json_content (data : Str) : Str :=
  match json_loads data with
  | some v => json_dumps v
  | none => data

/-- Bytes written by `_save_xml`; the `ElementTree` serialization itself is
outside the model (no claim depends on XML bytes). -/
def xmlFileContent (data : Str) : Str := data

/-- Bytes written by `_save_csv`; the `csv.writer` output is outside the
model (no claim depends on CSV bytes). -/
def csvFileContent (data : Str) : Str := data

/-- Bytes written by `_save_yaml` when pyyaml is available; outside the model. -/
def yamlFileContent (data : Str) : Str := data

/-- The error text of `pyyaml`-missing `RuntimeError`. -/
def pyyamlMissingMsg : Str := "pyyaml is not installed. Run: pip install pyyaml".data

/-- `MF_SaveData.save_data`: clean fences, build the path, dispatch on the
format, return the path; any exception is caught and reported as
`Error: ...`. -/
def save_data (hasYaml : Bool) (fault : Option Str) (fs : FS)
    (data output_path filename : Str) (format : SaveFormat) : FS × Str :=
  match fault with
  | some msg => (fs, "Error: ".data ++ msg)
  | none =>
    let d := clean_markdown_fences data
    let filepath := pyJoin output_path (filename ++ '.' :: formatStr format)
    match format with
    | .json => (setEntry fs filepath (save_json_content d), filepath)
    | .xml => (setEntry fs filepath (xmlFileContent d), filepath)
    | .csv => (setEntry fs filepath (csvFileContent d), filepath)
    | .yaml =>
      if hasYaml then (setEntry fs filepath (yamlFileContent d), filepath)
      else (fs, "Error: ".data ++ pyyamlMissingMsg)

/-- `str(e)` of the `JSONDecodeError` on invalid JSON; the CPython message
text is outside the model. -/
def jsonDecodeErrorMsg (content : Str) : Str := "Expecting value".data ++ content.take 0

/-- Output of `_read_xml`; outside the model. -/
def xmlReadOutput (content : Str) : Str := content

/-- Output of `_read_csv`; outside the model. -/
def csvReadOutput (content : Str) : Str := content

/-- Output of `_read_yaml` when pyyaml is available; outside the model. -/
def yamlReadOutput (content : Str) : Str := content

/-- `MF_ReadData.read_data`: missing file gives `File not found: ...`, any
exception gives `Error: ...`, otherwise dispatch on the lowercased extension
(JSON is re-serialized from its parse; unknown extensions read as text). -/
def read_data (hasYaml : Bool) (fault : Option Str) (fs : FS)
    (file_path filename : Str) : Str :=
  let filepath := pyJoin file_path filename
  match lookupEntry fs filepath with
  | none => "File not found: ".data ++ filepath
  | some content =>
    match fault with
    | some msg => "Error: ".data ++ msg
    | none =>
      let ext := readExt filename
      if ext = "json".data then
        match json_loads content with
        | some v => json_dumps v
        | none => "Error: ".data ++ jsonDecodeErrorMsg content
      else if ext = "xml".data then xmlReadOutput content
      else if ext = "csv".data then csvReadOutput content
      else if ext = "yaml".data ∨ ext = "yml".data then
        if hasYaml then yamlReadOutput content else "Error: ".data ++ pyyamlMissingMsg
      else content

/-- C8: I/O failures are caught, not propagated: a fault makes `save_data`
and `read_data` return `Error: ` followed by the exception text; a fault-free
save returns the file path or an `Error: ` string (pyyaml missing); reading
a nonexistent file reports `File not found: ` and the path. -/
theorem data_io_error_handling (hasYaml : Bool) (fs : FS) (d p f : Str) (fmt : SaveFormat)
    (msg : Str) (fp fn : Str) :
    ((save_data hasYaml (some msg) fs d p f fmt).2 = "Error: ".data ++ msg)
    ∧ ((save_data hasYaml none fs d p f fmt).2 = pyJoin p (f ++ '.' :: formatStr fmt)
        ∨ ∃ m, (save_data hasYaml none fs d p f fmt).2 = "Error: ".data ++ m)
    ∧ (lookupEntry fs (pyJoin fp fn) = none →
        read_data hasYaml none fs fp fn = "File not found: ".data ++ pyJoin fp fn)
    ∧ (∀ content, lookupEntry fs (pyJoin fp fn) = some content →
        read_data hasYaml (some msg) fs fp fn = "Error: ".data ++ msg) := by
  refine ⟨rfl, ?_, ?_, ?_⟩
  · cases fmt with
    | json => exact Or.inl rfl
    | xml => exact Or.inl rfl
    | csv => exact Or.inl rfl
    | yaml =>
      cases hasYaml with
      | true => exact Or.inl rfl
      | false => exact Or.inr ⟨pyyamlMissingMsg, rfl⟩
  · intro hnone
    unfold read_data
    dsimp only
    rw [hnone]
  · intro content hsome
    unfold read_data
    dsimp only
    rw [hsome]

/-- Concrete directory name for witnesses. -/
def dirExample : Str := "output".data

/-- Concrete file name for witnesses. -/
def fileExample : Str := "data.json".data

/-- Witness for C8: reading `output/data.json` from an empty filesystem. -/
theorem data_io_error_handling_witness :
    read_data true none [] dirExample fileExample =
      "File not found: ".data ++ pyJoin dirExample fileExample :=
  (data_io_error_handling true [] [] [] [] SaveFormat.json [] dirExample fileExample).2.2.1
    (by decide)

/-- Stepping `extSearch` over the reversed `.json` suffix: the extension is
`.json` exactly when the basename in front of the dot has a non-dot char. -/
theorem extSearch_dot_json (r : Str) :
    extSearch ('n' :: 'o' :: 's' :: 'j' :: '.' :: r) []
      = if (r.takeWhile (fun x => decide ¬(x = '/'))).any (fun x => decide ¬(x = '.'))
        then '.' :: 'j' :: 's' :: 'o' :: 'n' :: [] else [] := by
  rfl

/-- The lowercased, dot-stripped extension of `f ++ ".json"` is either
`json` or empty. -/
theorem readExt_dot_json (f : Str) :
    readExt (f ++ '.' :: formatStr SaveFormat.json) = formatStr SaveFormat.json
    ∨ readExt (f ++ '.' :: formatStr SaveFormat.json) = [] := by
  unfold readExt extOf
  rw [show ((f ++ '.' :: formatStr SaveFormat.json).reverse : Str)
        = 'n' :: 'o' :: 's' :: 'j' :: '.' :: f.reverse by
      rw [List.reverse_append]; rfl]
  rw [extSearch_dot_json]
  by_cases hc : (f.reverse.takeWhile (fun x => decide ¬(x = '/'))).any
      (fun x => decide ¬(x = '.')) = true
  · left
    rw [if_pos hc]
    decide
  · right
    rw [if_neg hc]
    decide

/-- C9: JSON save/read round-trip: if `d` (not fenced once stripped) parses
as JSON value `v`, then saving it with format json and reading back
`f ++ ".json"` from the same directory yields a string whose JSON parse is
`v` again. -/
theorem json_save_read_roundtrip (hasYaml : Bool) (fs : FS) (d p f : Str) (v : Json)
    (hnf : startsWithFence (pyStrip d) = false)
    (hp : json_loads (pyStrip d) = some v) :
    json_loads (read_data hasYaml none
      (save_data hasYaml none fs d p f SaveFormat.json).1
      p (f ++ '.' :: formatStr SaveFormat.json)) = some v := by
  have hclean : clean_markdown_fences d = pyStrip d := by
    unfold clean_markdown_fences
    dsimp only
    rw [hnf]
    rfl
  have hcontent : save_json_content (clean_markdown_fences d) = json_dumps v := by
    unfold save_json_content
    rw [hclean, hp]
  have hround : json_loads (json_dumps v) = some v :=
    json_loads_json_dumps v (json_loads_wf hp)
  have hsave : (save_data hasYaml none fs d p f SaveFormat.json).1
      = setEntry fs (pyJoin p (f ++ '.' :: formatStr SaveFormat.json))
          (save_json_content (clean_markdown_fences d)) := rfl
  unfold read_data
  dsimp only
  rw [hsave, lookupEntry_setEntry_self, hcontent]
  dsimp only
  rcases readExt_dot_json f with he | he
  · rw [he, if_pos (show formatStr SaveFormat.json = 'j' :: 's' :: 'o' :: 'n' :: [] by rfl),
      hround]
    exact hround
  · rw [he]
    rw [if_neg (by decide), if_neg (by decide), if_neg (by decide), if_neg (by decide)]
    exact hround

/-- Concrete JSON document for the round-trip witness. -/
def jsonDocExample : Str := "[1, 2]".data

/-- Its parse. -/
def jsonValExample : Json := Json.arr [Json.num 1, Json.num 2]

/-- Base file name (no extension) for the round-trip witness. -/
def fileBaseExample : Str := "data".data

/-- Witness for C9: saving `[1, 2]` as `output/data.json` into an empty
filesystem and reading it back parses to the same value. -/
theorem json_save_read_roundtrip_witness :
    json_loads (read_data true none
      (save_data true none [] jsonDocExample dirExample fileBaseExample SaveFormat.json).1
      dirExample (fileBaseExample ++ '.' :: formatStr SaveFormat.json)) = some jsonValExample :=
  json_save_read_roundtrip true [] jsonDocExample dirExample fileBaseExample jsonValExample
    (by decide) (by rfl)
